import Mathlib

/-!
Verification of the simple_maze repository core against its specification.

Shallow embedding conventions, used throughout:

* A Python grid (list of lists of ints, 1 = walkable/Open, 0 = wall) is
  `Grid := List (List Nat)`.
* A Python coordinate (row, col) of non-negative ints (the spec's
  Coordinate data type) is `Coord := Nat × Nat`.
* Python exceptions are modelled with `Except String`; the string names the
  Python exception class that would be raised ("IndexError" for an
  out-of-range list subscript, "ValueError" for the explicit raises in the
  source).  In-place mutation of the grid is modelled by returning the
  final grid state alongside the result.
* Python dictionaries are association lists looked up from the front, with
  insertion modelled by consing (shadowing semantics, lookup-equivalent to
  in-place overwrite).
* `heapq` pops a minimal element under Python tuple (lexicographic)
  comparison; since equal tuples are indistinguishable, the heap is
  modelled as a list from which `popMin` removes one minimal element.
* `random.Random(seed)` is a deterministic pseudo-random generator; the
  shuffles it produces are modelled by a deterministic stream of
  permutations (`pyShuffle`), and every theorem about shuffled data is
  proved for an arbitrary stream of permutations, which covers every seed.
-/

namespace SimpleMaze

/-- A grid coordinate (row, col): the spec's Coordinate is a pair of
non-negative integers. -/
abbrev Coord := Nat × Nat

/-- The grid: a list of rows of cell values, 1 = Open (walkable), 0 = Wall.
Mirrors the Python list-of-lists produced by generate_maze. -/
abbrev Grid := List (List Nat)

/-- Reading grid[r][c] with Python semantics for non-negative indices:
none models the IndexError raised when the subscript is out of range. -/
def getCell (g : Grid) (p : Coord) : Option Nat :=
  match g[p.1]? with
  | none => none
  | some row => row[p.2]?

/-- Writing grid[r][c] = v (no-op out of range; every write performed by the
source is in range). -/
def setCell (g : Grid) (p : Coord) (v : Nat) : Grid :=
  g.set p.1 ((g.getD p.1 []).set p.2 v)

/-- The grid is rectangular: every row has the length of row 0.  This is the
spec's Grid invariant ("grid is rectangular (every row has equal length)");
theorems about the solver assume it because Python indexing on ragged grids
raises IndexError where this embedding reads a missing cell as absent. -/
def IsRect (g : Grid) : Prop :=
  ∀ row ∈ g, row.length = (g.headD []).length

/-- The four 4-connectivity deltas, in the textual order of solver.py's
_neighbors (and of generator.py before any shuffle). -/
def delta4 : List (Int × Int) := [(0, 1), (1, 0), (0, -1), (-1, 0)]

/-- _neighbors from solver.py: in-bounds 4-neighbours of node whose cell
value is 1, in delta order.  rows/cols are taken from the grid exactly as
in the source (cols from row 0). -/
def pyNeighbors (g : Grid) (node : Coord) : List Coord :=
  let rows := g.length
  let cols := (g.headD []).length
  delta4.filterMap (fun d =>
    let nr : Int := (node.1 : Int) + d.1
    let nc : Int := (node.2 : Int) + d.2
    if 0 ≤ nr ∧ nr < (rows : Int) ∧ 0 ≤ nc ∧ nc < (cols : Int) ∧
        getCell g (nr.toNat, nc.toNat) = some 1
    then some (nr.toNat, nc.toNat) else none)

/-- _heuristic from solver.py: Manhattan distance. -/
def heuristic (a b : Coord) : Nat :=
  ((a.1 : Int) - b.1).natAbs + ((a.2 : Int) - b.2).natAbs

/-- Python tuple comparison on heap entries (f, (r, c)): lexicographic. -/
def keyLE (a b : Nat × Coord) : Prop :=
  a.1 < b.1 ∨ (a.1 = b.1 ∧ (a.2.1 < b.2.1 ∨ (a.2.1 = b.2.1 ∧ a.2.2 ≤ b.2.2)))

instance : DecidablePred (fun ab : (Nat × Coord) × (Nat × Coord) => keyLE ab.1 ab.2) :=
  fun _ => by unfold keyLE; infer_instance

instance (a b : Nat × Coord) : Decidable (keyLE a b) := by
  unfold keyLE; infer_instance

/-- heapq.heappop: remove one minimal entry under tuple comparison.  Equal
tuples are indistinguishable, so removing a minimal element is exactly the
binary-heap contract. -/
def popMin : List (Nat × Coord) → Option ((Nat × Coord) × List (Nat × Coord))
  | [] => none
  | x :: xs =>
    match popMin xs with
    | none => some (x, [])
    | some (m, rest) => if keyLE x m then some (x, xs) else some (m, x :: rest)

/-- Association-list lookup: Python dict read d[k] (none = KeyError). -/
def dget {α : Type} : List (Coord × α) → Coord → Option α
  | [], _ => none
  | (k0, v) :: rest, k => if k0 = k then some v else dget rest k

/-- Python dict read with default: d.get(k, dflt). -/
def dgetD {α : Type} (l : List (Coord × α)) (k : Coord) (dflt : α) : α :=
  (dget l k).getD dflt

/-- Python dict write d[k] = v (shadowing cons; lookup-equivalent to
overwrite). -/
def dset {α : Type} (l : List (Coord × α)) (k : Coord) (v : α) : List (Coord × α) :=
  (k, v) :: l

/-- The sentinel used by solver.py for an absent g-score:
gscore.get(nbr, 1_000_000). -/
def INF : Nat := 1000000

/-- The mutable state of astar's main loop. -/
structure AState where
  openSet : List (Nat × Coord)
  cameFrom : List (Coord × Coord)
  gscore : List (Coord × Nat)
  fscore : List (Coord × Nat)
  closed : List Coord

/-- One iteration of the for-nbr body of astar: skip closed neighbours,
otherwise relax through cur with tentative g-score gcur + 1.  gcur is
gscore[current], read once; the loop never changes gscore[current] because
current is never its own neighbour. -/
def relax (goal cur : Coord) (gcur : Nat) (st : AState) (nbr : Coord) : AState :=
  if nbr ∈ st.closed then st
  else
    let tentative := gcur + 1
    if tentative < dgetD st.gscore nbr INF then
      let f := tentative + heuristic nbr goal
      { openSet := (f, nbr) :: st.openSet
        cameFrom := dset st.cameFrom nbr cur
        gscore := dset st.gscore nbr tentative
        fscore := dset st.fscore nbr f
        closed := st.closed }
    else st

/-- The for-nbr loop of astar over the neighbour list. -/
def relaxList (goal cur : Coord) (gcur : Nat) (st : AState) : List Coord → AState
  | [] => st
  | n :: rest => relaxList goal cur gcur (relax goal cur gcur st n) rest

/-- Path reconstruction, following came_from from cur back to start and
collecting vertices in reverse order (the source builds the list and then
reverses it; astar applies .reverse to this).  The while loop is given
fuel; the call site passes more fuel than there are came_from entries,
which theorem backtrack-length bounds show is never exhausted. -/
def backtrack (cameFrom : List (Coord × Coord)) (start : Coord) :
    Nat → Coord → List Coord
  | 0, cur => [cur]
  | fuel + 1, cur =>
    if cur = start then [cur]
    else
      match dget cameFrom cur with
      | none => [cur]
      | some prev => cur :: backtrack cameFrom start fuel prev

/-- The while open_set loop of astar, with fuel (the call site passes fuel
exceeding the loop's decreasing measure, so the fuel case is never hit:
lemma astarLoop-fuel irrelevance).  Faithful to the source: pop a minimal
entry; if it is the goal, reconstruct and return; otherwise close it and
relax its neighbours. -/
def astarLoop (g : Grid) (start goal : Coord) : Nat → AState → Option (List Coord)
  | 0, _ => none
  | fuel + 1, st =>
    match popMin st.openSet with
    | none => none
    | some ((_, cur), rest) =>
      if cur = goal then
        some ((backtrack st.cameFrom start (st.cameFrom.length + 1) cur).reverse)
      else
        let st1 : AState := { st with openSet := rest, closed := cur :: st.closed }
        astarLoop g start goal fuel
          (relaxList goal cur (dgetD st1.gscore cur 0) st1 (pyNeighbors g cur))

/-- astar from solver.py.  The entry check
grid[start[0]][start[1]] != 1 or grid[goal[0]][goal[1]] != 1 evaluates
left to right with Python's short-circuiting or: grid[start] is indexed
first (IndexError when out of range); a non-1 start cell returns None with
the goal never indexed; otherwise grid[goal] is indexed (IndexError when
out of range) and a non-1 goal cell returns None.  Then the loop runs from
open_set = [(0, start)], gscore = (start, 0), fscore = (start, h(start, goal)). -/
def astar (g : Grid) (start goal : Coord) : Except String (Option (List Coord)) :=
  match getCell g start with
  | none => .error "IndexError"
  | some a =>
    if a ≠ 1 then .ok none
    else
      match getCell g goal with
      | none => .error "IndexError"
      | some b =>
        if b ≠ 1 then .ok none
        else
          let st0 : AState :=
            { openSet := [(0, start)]
              cameFrom := []
              gscore := [(start, 0)]
              fscore := [(start, heuristic start goal)]
              closed := [] }
          .ok (astarLoop g start goal (g.length * (g.headD []).length * INF + 2) st0)

/-! ### Solvability mutators (generator.py: make_multiple_solutions, make_unsolvable)

The astar_fn oracle is an explicit function argument, as in the source.  Its
Python exceptions propagate, so it returns Except; in-place grid mutation is
modelled by threading the grid and returning its final state.  The seeded
rng.shuffle calls are modelled by shuffle-function arguments; theorems
quantify over arbitrary permutation-producing shuffles, which covers every
seed. -/

/-- Python truthiness of an Optional path: None and the empty list are
falsy. -/
def truthy : Option (List Coord) → Bool
  | none => false
  | some l => !l.isEmpty

/-- The walkable-neighbour count used by make_multiple_solutions's candidate
scan. -/
def openNbrCount (g : Grid) (p : Coord) : Nat :=
  delta4.countP (fun d =>
    let nr : Int := (p.1 : Int) + d.1
    let nc : Int := (p.2 : Int) + d.2
    decide (0 ≤ nr ∧ nr < (g.length : Int) ∧ 0 ≤ nc ∧
      nc < ((g.headD []).length : Int) ∧ getCell g (nr.toNat, nc.toNat) = some 1))

/-- make_multiple_solutions's candidate walls: wall cells with at least two
walkable 4-neighbours, scanned in row-major order as in the source. -/
def wallCandidates (g : Grid) : List Coord :=
  (List.range g.length).flatMap (fun r =>
    (List.range (g.headD []).length).filterMap (fun c =>
      if getCell g (r, c) = some 0 ∧ 2 ≤ openNbrCount g (r, c) then some (r, c)
      else none))

/-- The candidate loop of make_multiple_solutions: try opening each wall,
keep it if the oracle finds a (truthy) path different from the original,
revert it otherwise. -/
def mmsLoop (astarFn : Grid → Coord → Coord → Except String (Option (List Coord)))
    (s e : Coord) (orig : Option (List Coord)) (maxTries : Nat) :
    List Coord → Nat → Grid → Except String Bool × Grid
  | [], _, g => (.ok false, g)
  | cell :: rest, tries, g =>
    if maxTries ≤ tries then (.ok false, g)
    else
      let g1 := setCell g cell 1
      match astarFn g1 s e with
      | .error m => (.error m, g1)
      | .ok np =>
        if truthy np ∧ np ≠ orig then (.ok true, g1)
        else mmsLoop astarFn s e orig maxTries rest (tries + 1) (setCell g1 cell 0)

/-- make_multiple_solutions from generator.py.  The endpoint check is the
same short-circuited or as astar's: grid[start] is indexed first
(IndexError out of range), a non-1 start raises ValueError with end never
indexed, then grid[end] likewise. -/
def make_multiple_solutions (g : Grid) (s e : Coord)
    (astarFn : Grid → Coord → Coord → Except String (Option (List Coord)))
    (sh : List Coord → List Coord) (maxTries : Nat := 200) :
    Except String Bool × Grid :=
  match getCell g s with
  | none => (.error "IndexError", g)
  | some a =>
    if a ≠ 1 then (.error "ValueError", g)
    else
      match getCell g e with
      | none => (.error "IndexError", g)
      | some b =>
        if b ≠ 1 then (.error "ValueError", g)
        else
          match astarFn g s e with
          | .error m => (.error m, g)
          | .ok orig =>
            if truthy orig then
              mmsLoop astarFn s e orig maxTries (sh (wallCandidates g)) 0 g
            else (.ok false, g)

/-- Round 1 of make_unsolvable: block intermediate path cells, reverting each
failure; ok none models falling through to the second round. -/
def muRound1 (astarFn : Grid → Coord → Coord → Except String (Option (List Coord)))
    (s e : Coord) (maxTries : Nat) :
    List Coord → Nat → Grid → Except String (Option Bool) × Grid
  | [], _, g => (.ok none, g)
  | cell :: rest, tries, g =>
    if maxTries ≤ tries then (.ok none, g)
    else
      match getCell g cell with
      | none => (.error "IndexError", g)
      | some saved =>
        let g1 := setCell g cell 0
        match astarFn g1 s e with
        | .error m => (.error m, g1)
        | .ok np =>
          if truthy np then
            muRound1 astarFn s e maxTries rest (tries + 1) (setCell g1 cell saved)
          else (.ok (some true), g1)

/-- The walkable cells other than start/end, scanned row-major, used by
make_unsolvable's fallback round. -/
def openCellsExcept (g : Grid) (s e : Coord) : List Coord :=
  (List.range g.length).flatMap (fun r =>
    (List.range (g.headD []).length).filterMap (fun c =>
      if getCell g (r, c) = some 1 ∧ (r, c) ≠ s ∧ (r, c) ≠ e then some (r, c)
      else none))

/-- Round 2 of make_unsolvable: try closing each listed walkable cell with
the same revert-on-failure logic. -/
def muRound2 (astarFn : Grid → Coord → Coord → Except String (Option (List Coord)))
    (s e : Coord) : List Coord → Grid → Except String Bool × Grid
  | [], g => (.ok false, g)
  | cell :: rest, g =>
    match getCell g cell with
    | none => (.error "IndexError", g)
    | some saved =>
      let g1 := setCell g cell 0
      match astarFn g1 s e with
      | .error m => (.error m, g1)
      | .ok np =>
        if truthy np then muRound2 astarFn s e rest (setCell g1 cell saved)
        else (.ok true, g1)

/-- make_unsolvable from generator.py: the same short-circuited endpoint
check as make_multiple_solutions, idempotent success when no path exists,
round one over the path's interior (with the single-cell fallback [path[1]]
when the interior is empty), then the fallback round over all other
walkable cells. -/
def make_unsolvable (g : Grid) (s e : Coord)
    (astarFn : Grid → Coord → Coord → Except String (Option (List Coord)))
    (sh1 sh2 : List Coord → List Coord) (maxTries : Nat := 100) :
    Except String Bool × Grid :=
  match getCell g s with
  | none => (.error "IndexError", g)
  | some a =>
    if a ≠ 1 then (.error "ValueError", g)
    else
      match getCell g e with
      | none => (.error "IndexError", g)
      | some b =>
        if b ≠ 1 then (.error "ValueError", g)
        else
          match astarFn g s e with
          | .error m => (.error m, g)
          | .ok path =>
            if truthy path then
              let pl := path.getD []
              let inter0 := (pl.drop 1).dropLast
              let inter :=
                if inter0 = [] then
                  (if 1 < pl.length then [pl.getD 1 (0, 0)] else [])
                else inter0
              match muRound1 astarFn s e maxTries (sh1 inter) 0 g with
              | (.error m, g2) => (.error m, g2)
              | (.ok (some b2), g2) => (.ok b2, g2)
              | (.ok none, g2) =>
                muRound2 astarFn s e ((sh2 (openCellsExcept g2 s e)).take maxTries) g2
            else (.ok true, g)

/-! ### Maze generation (generator.py: generate_maze)

The recursive backtracker is embedded as an equivalent explicit-stack
machine with one crucial point of faithfulness: carve's for-loop iterates
over the single shared deltas list that every nested carve call reshuffles
in place (rng.shuffle(deltas)), and a Python for-statement reads the live
list by index.  A frame therefore holds (room, next index), not a frozen
delta list: after a recursive call returns, the parent's remaining
iterations read the RE-shuffled list, so a frame can see the same delta
twice and never see another.  Entering carve(r, c) marks the room visited,
opens its grid cell and reshuffles (the first three statements of carve);
processing a frame's next index either opens the connecting wall and pushes
the neighbour's frame, or advances.  The grid is accumulated as the set of
visited rooms and opened walls (only 1s are ever written) and rendered at
the end. -/

/-- Room-to-grid coordinate conversion of generator.py: grid = 2 * room + 1. -/
def roomCell (p : Nat × Nat) : Nat × Nat := (2 * p.1 + 1, 2 * p.2 + 1)

/-- The wall cell between two rooms: the midpoint of their grid cells,
computed exactly as in carve ((gr + gr2) // 2, (gc + gc2) // 2). -/
def wallCell (p q : Nat × Nat) : Nat × Nat :=
  (((roomCell p).1 + (roomCell q).1) / 2, ((roomCell p).2 + (roomCell q).2) / 2)

/-- Carve machine state: visited rooms most-recent-first (the visited
matrix, with visit order), opened walls as (parent, child) room pairs, the
frame stack of (room, next index into the live deltas list), the current
contents of the shared deltas list, and the count of shuffles consumed. -/
structure CarveSt where
  visited : List (Nat × Nat)
  edges : List ((Nat × Nat) × (Nat × Nat))
  stack : List ((Nat × Nat) × Nat)
  deltas : List (Int × Int)
  k : Nat

/-- The room reached from rc by delta d (carve's nr, nc). -/
def nbrRoom (rc : Nat × Nat) (d : Int × Int) : Nat × Nat :=
  (((rc.1 : Int) + d.1).toNat, ((rc.2 : Int) + d.2).toNat)

/-- carve's recursion guard: the neighbouring room is in bounds and
unvisited. -/
def carveCond (rows cols : Nat) (visited : List (Nat × Nat)) (rc : Nat × Nat)
    (d : Int × Int) : Prop :=
  0 ≤ (rc.1 : Int) + d.1 ∧ (rc.1 : Int) + d.1 < (rows : Int) ∧
    0 ≤ (rc.2 : Int) + d.2 ∧ (rc.2 : Int) + d.2 < (cols : Int) ∧
    nbrRoom rc d ∉ visited

instance (rows cols : Nat) (visited : List (Nat × Nat)) (rc : Nat × Nat)
    (d : Int × Int) : Decidable (carveCond rows cols visited rc d) := by
  unfold carveCond; infer_instance

/-- One transition of the carve machine: the top frame reads the live
deltas list at its index (the for-statement's next()); past the end the
frame's loop is done and the call returns (pop); a delta passing carve's
guard opens the wall, enters the neighbour (visit, reshuffle) and pushes
its frame; otherwise the index advances. -/
def carveStep (sh : Nat → List (Int × Int)) (rows cols : Nat) (st : CarveSt) :
    CarveSt :=
  match st.stack with
  | [] => st
  | (rc, i) :: rest =>
    match st.deltas[i]? with
    | none => { st with stack := rest }
    | some d =>
      if carveCond rows cols st.visited rc d then
        let z : Nat × Nat := nbrRoom rc d
        { visited := z :: st.visited
          edges := (rc, z) :: st.edges
          stack := (z, 0) :: (rc, i + 1) :: rest
          deltas := sh st.k
          k := st.k + 1 }
      else { st with stack := (rc, i + 1) :: rest }

/-- All logical rooms, row-major. -/
def allRooms (rows cols : Nat) : List (Nat × Nat) :=
  (List.range rows).flatMap (fun r => (List.range cols).map (fun c => (r, c)))

/-- Number of not-yet-visited rooms (termination measure component). -/
def unvisitedCount (rows cols : Nat) (st : CarveSt) : Nat :=
  ((allRooms rows cols).filter (fun p => decide (p ∉ st.visited))).length

/-- Total pending reads on the stack against the current deltas length
(termination measure component). -/
def stackWeight (L : Nat) : List ((Nat × Nat) × Nat) → Nat
  | [] => 0
  | (_, i) :: rest => (L + 1 - i) + stackWeight L rest

theorem length_filter_lt_length_filter {α : Type} (l : List α) (p q : α → Bool)
    (z : α) (hz : z ∈ l) (hpz : p z = true) (hqz : q z = false)
    (himp : ∀ x, q x = true → p x = true) :
    (l.filter q).length < (l.filter p).length := by
  induction l with
  | nil => cases hz
  | cons a l ih =>
    have hmono : (l.filter q).length ≤ (l.filter p).length := by
      rw [← List.countP_eq_length_filter, ← List.countP_eq_length_filter]
      exact List.countP_mono_left (fun x _ hx => himp x hx)
    rcases List.mem_cons.mp hz with rfl | hz2
    · rw [List.filter_cons_of_neg (by simp [hqz]), List.filter_cons_of_pos hpz]
      simp only [List.length_cons]
      omega
    · by_cases hqa : q a = true
      · have hpa := himp a hqa
        rw [List.filter_cons_of_pos hpa, List.filter_cons_of_pos hqa]
        simp only [List.length_cons]
        exact Nat.succ_lt_succ (ih hz2)
      · rw [Bool.not_eq_true] at hqa
        by_cases hpa : p a = true
        · rw [List.filter_cons_of_pos hpa, List.filter_cons_of_neg (by simp [hqa])]
          simp only [List.length_cons]
          exact Nat.lt_succ_of_lt (ih hz2)
        · rw [Bool.not_eq_true] at hpa
          rw [List.filter_cons_of_neg (by simp [hqa]), List.filter_cons_of_neg (by simp [hpa])]
          exact ih hz2

theorem carveStep_pop (sh : Nat → List (Int × Int)) (rows cols : Nat)
    (st : CarveSt) (rc : Nat × Nat) (i : Nat)
    (rest : List ((Nat × Nat) × Nat))
    (hstack : st.stack = (rc, i) :: rest) (hd : st.deltas[i]? = none) :
    carveStep sh rows cols st = { st with stack := rest } := by
  unfold carveStep
  rw [hstack]
  dsimp only
  rw [hd]

theorem carveStep_push (sh : Nat → List (Int × Int)) (rows cols : Nat)
    (st : CarveSt) (rc : Nat × Nat) (i : Nat) (d : Int × Int)
    (rest : List ((Nat × Nat) × Nat))
    (hstack : st.stack = (rc, i) :: rest) (hd : st.deltas[i]? = some d)
    (hc : carveCond rows cols st.visited rc d) :
    carveStep sh rows cols st =
      { visited := nbrRoom rc d :: st.visited
        edges := (rc, nbrRoom rc d) :: st.edges
        stack := (nbrRoom rc d, 0) :: (rc, i + 1) :: rest
        deltas := sh st.k
        k := st.k + 1 } := by
  unfold carveStep
  rw [hstack]
  dsimp only
  rw [hd]
  dsimp only
  rw [if_pos hc]

theorem carveStep_skip (sh : Nat → List (Int × Int)) (rows cols : Nat)
    (st : CarveSt) (rc : Nat × Nat) (i : Nat) (d : Int × Int)
    (rest : List ((Nat × Nat) × Nat))
    (hstack : st.stack = (rc, i) :: rest) (hd : st.deltas[i]? = some d)
    (hc : ¬carveCond rows cols st.visited rc d) :
    carveStep sh rows cols st = { st with stack := (rc, i + 1) :: rest } := by
  unfold carveStep
  rw [hstack]
  dsimp only
  rw [hd]
  dsimp only
  rw [if_neg hc]

theorem nbrRoom_mem_allRooms (rows cols : Nat) (visited : List (Nat × Nat))
    (rc : Nat × Nat) (d : Int × Int) (hc : carveCond rows cols visited rc d) :
    nbrRoom rc d ∈ allRooms rows cols := by
  unfold allRooms
  rw [List.mem_flatMap]
  obtain ⟨h1, h2, h3, h4, _⟩ := hc
  refine ⟨(nbrRoom rc d).1, ?_, ?_⟩
  · rw [List.mem_range]
    unfold nbrRoom
    omega
  · rw [List.mem_map]
    refine ⟨(nbrRoom rc d).2, ?_, rfl⟩
    rw [List.mem_range]
    unfold nbrRoom
    omega

theorem carveStep_decreases (sh : Nat → List (Int × Int)) (rows cols : Nat)
    (st : CarveSt) (h : st.stack ≠ []) :
    unvisitedCount rows cols (carveStep sh rows cols st) < unvisitedCount rows cols st ∨
      (unvisitedCount rows cols (carveStep sh rows cols st) = unvisitedCount rows cols st ∧
        (carveStep sh rows cols st).stack.length < st.stack.length) ∨
      (unvisitedCount rows cols (carveStep sh rows cols st) = unvisitedCount rows cols st ∧
        (carveStep sh rows cols st).stack.length = st.stack.length ∧
        stackWeight (carveStep sh rows cols st).deltas.length (carveStep sh rows cols st).stack <
          stackWeight st.deltas.length st.stack) := by
  match hstack : st.stack with
  | [] => exact absurd hstack h
  | (rc, i) :: rest =>
    match hd : st.deltas[i]? with
    | none =>
      rw [carveStep_pop sh rows cols st rc i rest hstack hd]
      right
      left
      refine ⟨rfl, ?_⟩
      simp
    | some d =>
      by_cases hc : carveCond rows cols st.visited rc d
      · rw [carveStep_push sh rows cols st rc i d rest hstack hd hc]
        left
        unfold unvisitedCount
        apply length_filter_lt_length_filter (z := nbrRoom rc d)
        · exact nbrRoom_mem_allRooms rows cols st.visited rc d hc
        · rw [decide_eq_true_iff]
          exact hc.2.2.2.2
        · rw [decide_eq_false_iff_not]
          intro hnot
          exact hnot (List.mem_cons_self _ _)
        · intro x hx
          rw [decide_eq_true_iff] at hx ⊢
          intro hmem
          exact hx (List.mem_cons_of_mem _ hmem)
      · rw [carveStep_skip sh rows cols st rc i d rest hstack hd hc]
        right
        right
        refine ⟨rfl, rfl, ?_⟩
        dsimp only [stackWeight]
        have hi : i < st.deltas.length := by
          by_contra hge
          rw [List.getElem?_eq_none (by omega)] at hd
          exact Option.noConfusion hd
        omega

/-- Run the carve machine to completion (the DFS traversal of carve(0, 0)). -/
def carveRun (sh : Nat → List (Int × Int)) (rows cols : Nat) (st : CarveSt) :
    CarveSt :=
  if h : st.stack = [] then st
  else carveRun sh rows cols (carveStep sh rows cols st)
termination_by
  (unvisitedCount rows cols st, st.stack.length, stackWeight st.deltas.length st.stack)
decreasing_by
  rcases carveStep_decreases sh rows cols st h with hlt | ⟨heq, hlt⟩ | ⟨heq, heq2, hlt⟩
  · exact Prod.Lex.left _ _ hlt
  · rw [heq]
    exact Prod.Lex.right _ (Prod.Lex.left _ _ hlt)
  · rw [heq, heq2]
    exact Prod.Lex.right _ (Prod.Lex.right _ hlt)

/-- Initial machine state: carve(0, 0) marks room (0,0) visited, opens its
grid cell, and shuffles the deltas for the first time before its for-loop
starts at index 0. -/
def carveInit (sh : Nat → List (Int × Int)) : CarveSt :=
  { visited := [(0, 0)], edges := [], stack := [((0, 0), 0)], deltas := sh 0, k := 1 }

/-- Whether grid cell (i, j) was opened: it is the room cell of a visited
room or the wall cell of an opened wall. -/
def openCellB (visited : List (Nat × Nat)) (edges : List ((Nat × Nat) × (Nat × Nat)))
    (i j : Nat) : Bool :=
  visited.any (fun rc => decide (roomCell rc = (i, j))) ||
    edges.any (fun pc => decide (wallCell pc.1 pc.2 = (i, j)))

/-- The final grid: the all-wall (2*rows+1) x (2*cols+1) grid of _make_grid
with every write grid[x][y] = 1 performed by carve applied. -/
def render (rows cols : Nat) (visited : List (Nat × Nat))
    (edges : List ((Nat × Nat) × (Nat × Nat))) : Grid :=
  (List.range (2 * rows + 1)).map (fun i =>
    (List.range (2 * cols + 1)).map (fun j =>
      if openCellB visited edges i j then 1 else 0))

/-- generate_maze's body for a given shuffle stream. -/
def generateWith (sh : Nat → List (Int × Int)) (rows cols : Nat) : Grid :=
  let fin := carveRun sh rows cols (carveInit sh)
  render rows cols fin.visited fin.edges

/-- One selection step of a Fisher-Yates-style shuffle model: pick the
element at index k mod length, continue on the rest. -/
def pickPerm {α : Type} : Nat → List α → List α
  | _, [] => []
  | k, x :: xs =>
    let i := k % (x :: xs).length
    (x :: xs).getD i x :: pickPerm (k / (x :: xs).length) ((x :: xs).eraseIdx i)
termination_by _ l => l.length
decreasing_by
  simp only [List.length_eraseIdx]
  have hi : k % (x :: xs).length < (x :: xs).length :=
    Nat.mod_lt _ (by simp)
  simp only [hi, if_pos]
  omega

/-- Deterministic model of the state of random.Random(seed) at its n-th
shuffle call.  Python's Mersenne Twister is not reproduced; any fixed
deterministic function of (seed, n) is a faithful model of a seeded PRNG,
and every maze theorem is proved for arbitrary permutation streams. -/
def mixSeed (seed : Option Nat) (n : Nat) : Nat :=
  match seed with
  | some s => (s + 1) * 6364136223846793005 + (n + 1) * 1442695040888963407
  | none => (n + 1) * 2654435761

/-- The stream of shuffled delta lists consumed by carve (one shuffle per
carve entry, in visit order). -/
def mazeShuffles (seed : Option Nat) (n : Nat) : List (Int × Int) :=
  pickPerm (mixSeed seed n) delta4

/-- generate_maze from generator.py: ValueError when rows or cols < 1,
otherwise the carved grid. -/
def generate_maze (rows cols : Nat) (seed : Option Nat := none) :
    Except String Grid :=
  if rows < 1 ∨ cols < 1 then .error "ValueError"
  else .ok (generateWith (mazeShuffles seed) rows cols)

/-! ### Grid read/write lemmas -/

theorem list_set_self {α : Type} (l : List α) (n : Nat) (a : α)
    (h : l[n]? = some a) : l.set n a = l := by
  have hn : n < l.length := by
    by_contra hn
    rw [List.getElem?_eq_none (by omega)] at h
    exact Option.noConfusion h
  have ha : l[n] = a := by
    have := List.getElem?_eq_getElem hn
    rw [this] at h
    exact Option.some.inj h
  subst ha
  apply List.ext_getElem?
  intro m
  by_cases hm : n = m
  · subst hm
    rw [List.getElem?_set_self (by omega)]
    simp [hn]
  · rw [List.getElem?_set_ne hm]

theorem setCell_of_getCell (g : Grid) (p : Coord) (v : Nat)
    (h : getCell g p = some v) : setCell g p v = g := by
  unfold getCell at h
  unfold setCell
  match hrow : g[p.1]? with
  | none => rw [hrow] at h; exact Option.noConfusion h
  | some row =>
    rw [hrow] at h
    have hgd : g.getD p.1 [] = row := by
      rw [List.getD_eq_getElem?_getD, hrow]
      rfl
    rw [hgd, list_set_self row p.2 v h, list_set_self g p.1 row hrow]

theorem setCell_setCell (g : Grid) (p : Coord) (v1 v2 : Nat) :
    setCell (setCell g p v1) p v2 = setCell g p v2 := by
  unfold setCell
  by_cases hi : p.1 < g.length
  · have hgd : (g.set p.1 ((g.getD p.1 []).set p.2 v1)).getD p.1 [] =
        (g.getD p.1 []).set p.2 v1 := by
      rw [List.getD_eq_getElem?_getD, List.getElem?_set_self hi]
      rfl
    rw [hgd, List.set_set, List.set_set]
  · have h1 : ∀ r : List Nat, g.set p.1 r = g :=
      fun r => List.set_eq_of_length_le (by omega)
    simp only [h1]

theorem setCell_revert (g : Grid) (p : Coord) (x v : Nat)
    (h : getCell g p = some v) : setCell (setCell g p x) p v = g := by
  rw [setCell_setCell, setCell_of_getCell g p v h]

theorem getCell_eq_bind (g : Grid) (p : Coord) :
    getCell g p = (g[p.1]?).bind (fun row => row[p.2]?) := by
  unfold getCell
  cases g[p.1]? <;> rfl

theorem getCell_setCell_ne (g : Grid) (p q : Coord) (v : Nat) (h : p ≠ q) :
    getCell (setCell g p v) q = getCell g q := by
  rw [getCell_eq_bind, getCell_eq_bind]
  unfold setCell
  by_cases h1 : p.1 = q.1
  · have h2 : p.2 ≠ q.2 := fun h2 => h (Prod.ext h1 h2)
    rw [h1]
    by_cases hi : q.1 < g.length
    · rw [List.getElem?_set_self hi]
      match hrow : g[q.1]? with
      | none =>
        have := List.getElem?_eq_getElem hi
        rw [hrow] at this
        exact Option.noConfusion this
      | some row =>
        have hgd : g.getD q.1 [] = row := by
          rw [List.getD_eq_getElem?_getD, hrow]; rfl
        rw [hgd]
        simp only [Option.some_bind]
        exact List.getElem?_set_ne h2
    · rw [List.set_eq_of_length_le (by omega)]
  · rw [List.getElem?_set_ne h1]

theorem getCell_setCell_self (g : Grid) (p : Coord) (v w : Nat)
    (h : getCell g p = some w) : getCell (setCell g p v) p = some v := by
  rw [getCell_eq_bind] at h ⊢
  unfold setCell
  match hrow : g[p.1]? with
  | none => rw [hrow] at h; exact Option.noConfusion h
  | some row =>
    rw [hrow] at h
    simp only [Option.some_bind] at h
    have hi : p.1 < g.length := by
      by_contra hi
      have : g[p.1]? = none := List.getElem?_eq_none (by omega)
      rw [this] at hrow
      exact Option.noConfusion hrow
    have hj : p.2 < row.length := by
      by_contra hj
      have : row[p.2]? = none := List.getElem?_eq_none (by omega)
      rw [this] at h
      exact Option.noConfusion h
    have hgd : g.getD p.1 [] = row := by
      rw [List.getD_eq_getElem?_getD, hrow]; rfl
    rw [List.getElem?_set_self hi, hgd]
    simp only [Option.some_bind]
    rw [List.getElem?_set_self (by simpa using hj)]

/-! ### Paths in the 4-connected graph of Open cells -/

/-- Two coordinates are 4-adjacent. -/
def adjacentC (a b : Coord) : Prop :=
  (a.1 = b.1 ∧ (a.2 + 1 = b.2 ∨ b.2 + 1 = a.2)) ∨
    (a.2 = b.2 ∧ (a.1 + 1 = b.1 ∨ b.1 + 1 = a.1))

instance (a b : Coord) : Decidable (adjacentC a b) := by
  unfold adjacentC; infer_instance

/-- The spec's Path: a non-empty sequence from s to e whose consecutive
pairs are 4-adjacent and whose cells are all Open. -/
def IsPathList (g : Grid) (p : List Coord) (s e : Coord) : Prop :=
  p ≠ [] ∧ p.head? = some s ∧ p.getLast? = some e ∧
    p.Chain' adjacentC ∧ ∀ c ∈ p, getCell g c = some 1

/-! ### C7 and C10: entry behaviour of astar -/

/-- C7 counterexample: the claim quantifies over every pair of coordinates,
but astar indexes grid[start] before any check, so an out-of-range start
raises IndexError instead of returning a Path or None. -/
theorem astar_raises_out_of_bounds :
    astar [[1]] (1, 0) (0, 0) = Except.error "IndexError" ∧
      ¬∃ r : Option (List Coord), astar [[1]] (1, 0) (0, 0) = Except.ok r := by
  refine ⟨rfl, ?_⟩
  rintro ⟨r, h⟩
  have he : astar [[1]] (1, 0) (0, 0) = Except.error "IndexError" := rfl
  rw [he] at h
  exact Except.noConfusion h

/-- C7 (amended): astar's entry check evaluates left to right with
Python's short-circuiting or.  With an in-bounds start cell a: a Wall
start (a not 1) returns None with the goal never indexed, even an
out-of-bounds goal; with an Open start, an out-of-bounds goal raises
IndexError; and with both endpoints in-bounds astar always returns a Path
or None, returning None immediately when either endpoint is a Wall cell.
(An out-of-bounds start raises IndexError: the counterexample.) -/
theorem astar_entry_cases (g : Grid) (s e : Coord) (a : Nat)
    (hs : getCell g s = some a) :
    (a ≠ 1 → astar g s e = Except.ok none) ∧
      (a = 1 → getCell g e = none → astar g s e = Except.error "IndexError") ∧
      (∀ b, getCell g e = some b →
        (∃ r : Option (List Coord), astar g s e = Except.ok r) ∧
          ((a ≠ 1 ∨ b ≠ 1) → astar g s e = Except.ok none)) := by
  unfold astar
  rw [hs]
  dsimp only
  refine ⟨?_, ?_, ?_⟩
  · intro ha
    rw [if_pos ha]
  · intro ha hoob
    rw [if_neg (by simp [ha]), hoob]
  · intro b he
    by_cases ha : a = 1
    · rw [if_neg (by simp [ha]), he]
      dsimp only
      by_cases hb : b = 1
      · rw [if_neg (by simp [hb])]
        refine ⟨⟨_, rfl⟩, ?_⟩
        rintro (h | h)
        · exact absurd ha h
        · exact absurd hb h
      · rw [if_pos hb]
        exact ⟨⟨none, rfl⟩, fun _ => rfl⟩
    · rw [if_pos ha]
      exact ⟨⟨none, rfl⟩, fun _ => rfl⟩

/-- C7 witness: the amended theorem at the short-circuit corner — a Wall
start with an out-of-bounds goal returns None (the goal is never
indexed). -/
theorem astar_entry_cases_witness :
    getCell [[0]] (0, 0) = some 0 ∧
      astar [[0]] (0, 0) (0, 5) = Except.ok none ∧
      (((0 : Nat) ≠ 1 → astar [[0]] (0, 0) (0, 5) = Except.ok none) ∧
        ((0 : Nat) = 1 → getCell [[0]] (0, 5) = none →
          astar [[0]] (0, 0) (0, 5) = Except.error "IndexError") ∧
        (∀ b, getCell [[0]] (0, 5) = some b →
          (∃ r : Option (List Coord), astar [[0]] (0, 0) (0, 5) = Except.ok r) ∧
            (((0 : Nat) ≠ 1 ∨ b ≠ 1) → astar [[0]] (0, 0) (0, 5) = Except.ok none))) :=
  ⟨by decide, rfl, astar_entry_cases [[0]] (0, 0) (0, 5) 0 (by decide)⟩

/-- C10 counterexample: the claim quantifies over every grid and start, but
when start is a Wall cell astar start start returns None, not [start]. -/
theorem astar_self_wall_returns_none :
    astar [[0]] (0, 0) (0, 0) = Except.ok none ∧
      astar [[0]] (0, 0) (0, 0) ≠ Except.ok (some [(0, 0)]) := by
  refine ⟨rfl, ?_⟩
  intro h
  have he : astar [[0]] (0, 0) (0, 0) = Except.ok none := rfl
  rw [he] at h
  exact Option.noConfusion (Except.ok.inj h)

/-- C10 (amended to an Open start): astar with goal equal to start returns
the single-element path [start]. -/
theorem astar_self (g : Grid) (s : Coord) (hs : getCell g s = some 1) :
    astar g s s = Except.ok (some [s]) := by
  unfold astar
  rw [hs]
  dsimp only
  rw [if_neg (by simp)]
  rw [if_neg (by simp)]
  obtain ⟨m, hm⟩ : ∃ m, g.length * (g.headD []).length * INF + 2 = m + 1 :=
    ⟨g.length * (g.headD []).length * INF + 1, by omega⟩
  rw [hm]
  simp [astarLoop, popMin, backtrack]

/-- C10 witness: the amended theorem applied at a concrete grid. -/
theorem astar_self_witness :
    getCell [[1]] (0, 0) = some 1 ∧ astar [[1]] (0, 0) (0, 0) = Except.ok (some [(0, 0)]) :=
  ⟨by decide, astar_self [[1]] (0, 0) (by decide)⟩

/-! ### C5: InvalidEndpoint error and trial-and-rollback -/

theorem mem_wallCandidates (g : Grid) (c : Coord) (h : c ∈ wallCandidates g) :
    getCell g c = some 0 := by
  unfold wallCandidates at h
  rw [List.mem_flatMap] at h
  obtain ⟨r, _, hc⟩ := h
  rw [List.mem_filterMap] at hc
  obtain ⟨c2, _, hc2⟩ := hc
  by_cases hcond : getCell g (r, c2) = some 0 ∧ 2 ≤ openNbrCount g (r, c2)
  · rw [if_pos hcond] at hc2
    obtain rfl := Option.some.inj hc2
    exact hcond.1
  · rw [if_neg hcond] at hc2
    exact Option.noConfusion hc2

theorem mmsLoop_ok_false (astarFn : Grid → Coord → Coord → Except String (Option (List Coord)))
    (s e : Coord) (orig : Option (List Coord)) (mt : Nat) :
    ∀ (cands : List Coord) (tries : Nat) (g g' : Grid),
      (∀ c ∈ cands, getCell g c = some 0) →
      mmsLoop astarFn s e orig mt cands tries g = (Except.ok false, g') → g' = g := by
  intro cands
  induction cands with
  | nil =>
    intro tries g g' _ h
    simp only [mmsLoop] at h
    exact (Prod.mk.injEq _ _ _ _ ▸ h).2.symm
  | cons cell rest ih =>
    intro tries g g' hmem h
    simp only [mmsLoop] at h
    by_cases hmt : mt ≤ tries
    · rw [if_pos hmt] at h
      exact (Prod.mk.injEq _ _ _ _ ▸ h).2.symm
    · rw [if_neg hmt] at h
      match hA : astarFn (setCell g cell 1) s e with
      | .error m =>
        rw [hA] at h
        simp at h
      | .ok np =>
        rw [hA] at h
        dsimp only at h
        by_cases hcond : truthy np = true ∧ np ≠ orig
        · rw [if_pos hcond] at h
          simp at h
        · rw [if_neg hcond] at h
          have hrev : setCell (setCell g cell 1) cell 0 = g :=
            setCell_revert g cell 1 0 (hmem cell (List.mem_cons_self _ _))
          rw [hrev] at h
          exact ih (tries + 1) g g' (fun c hc => hmem c (List.mem_cons_of_mem _ hc)) h

theorem mmsLoop_no_value_error
    (astarFn : Grid → Coord → Coord → Except String (Option (List Coord)))
    (s e : Coord) (orig : Option (List Coord)) (mt : Nat)
    (hno : ∀ g1 : Grid, astarFn g1 s e ≠ Except.error "ValueError") :
    ∀ (cands : List Coord) (tries : Nat) (g : Grid),
      (mmsLoop astarFn s e orig mt cands tries g).1 ≠ Except.error "ValueError" := by
  intro cands
  induction cands with
  | nil =>
    intro tries g h
    simp only [mmsLoop] at h
    exact Except.noConfusion h
  | cons cell rest ih =>
    intro tries g h
    simp only [mmsLoop] at h
    by_cases hmt : mt ≤ tries
    · rw [if_pos hmt] at h
      exact Except.noConfusion h
    · rw [if_neg hmt] at h
      match hA : astarFn (setCell g cell 1) s e with
      | .error m =>
        rw [hA] at h
        dsimp only at h
        have hm := Except.error.inj h
        exact hno _ (by rw [hA, hm])
      | .ok np =>
        rw [hA] at h
        dsimp only at h
        by_cases hcond : truthy np = true ∧ np ≠ orig
        · rw [if_pos hcond] at h
          exact Except.noConfusion h
        · rw [if_neg hcond] at h
          exact ih (tries + 1) _ h

theorem muRound1_ok_none (astarFn : Grid → Coord → Coord → Except String (Option (List Coord)))
    (s e : Coord) (mt : Nat) :
    ∀ (cands : List Coord) (tries : Nat) (g g' : Grid),
      muRound1 astarFn s e mt cands tries g = (Except.ok none, g') → g' = g := by
  intro cands
  induction cands with
  | nil =>
    intro tries g g' h
    simp only [muRound1] at h
    exact (Prod.mk.injEq _ _ _ _ ▸ h).2.symm
  | cons cell rest ih =>
    intro tries g g' h
    simp only [muRound1] at h
    by_cases hmt : mt ≤ tries
    · rw [if_pos hmt] at h
      exact (Prod.mk.injEq _ _ _ _ ▸ h).2.symm
    · rw [if_neg hmt] at h
      match hsv : getCell g cell with
      | none =>
        rw [hsv] at h
        simp at h
      | some saved =>
        rw [hsv] at h
        dsimp only at h
        match hA : astarFn (setCell g cell 0) s e with
        | .error m =>
          rw [hA] at h
          simp at h
        | .ok np =>
          rw [hA] at h
          dsimp only at h
          by_cases htr : truthy np = true
          · rw [if_pos htr] at h
            have hrev : setCell (setCell g cell 0) cell saved = g :=
              setCell_revert g cell 0 saved hsv
            rw [hrev] at h
            exact ih (tries + 1) g g' h
          · rw [if_neg htr] at h
            simp at h

theorem muRound1_ok_some (astarFn : Grid → Coord → Coord → Except String (Option (List Coord)))
    (s e : Coord) (mt : Nat) :
    ∀ (cands : List Coord) (tries : Nat) (g g' : Grid) (bb : Bool),
      muRound1 astarFn s e mt cands tries g = (Except.ok (some bb), g') →
      bb = true ∧ ∃ np, astarFn g' s e = Except.ok np ∧ truthy np = false := by
  intro cands
  induction cands with
  | nil =>
    intro tries g g' bb h
    simp only [muRound1] at h
    simp at h
  | cons cell rest ih =>
    intro tries g g' bb h
    simp only [muRound1] at h
    by_cases hmt : mt ≤ tries
    · rw [if_pos hmt] at h
      simp at h
    · rw [if_neg hmt] at h
      match hsv : getCell g cell with
      | none =>
        rw [hsv] at h
        simp at h
      | some saved =>
        rw [hsv] at h
        dsimp only at h
        match hA : astarFn (setCell g cell 0) s e with
        | .error m =>
          rw [hA] at h
          simp at h
        | .ok np =>
          rw [hA] at h
          dsimp only at h
          by_cases htr : truthy np = true
          · rw [if_pos htr] at h
            exact ih (tries + 1) _ g' bb h
          · rw [if_neg htr] at h
            have h2 := Prod.mk.injEq _ _ _ _ ▸ h
            obtain ⟨h3, h4⟩ := h2
            refine ⟨?_, np, ?_, ?_⟩
            · have := Except.ok.inj h3
              exact (Option.some.inj this).symm
            · rw [← h4]
              exact hA
            · simpa using htr

theorem muRound1_no_value_error
    (astarFn : Grid → Coord → Coord → Except String (Option (List Coord)))
    (s e : Coord) (mt : Nat)
    (hno : ∀ g1 : Grid, astarFn g1 s e ≠ Except.error "ValueError") :
    ∀ (cands : List Coord) (tries : Nat) (g : Grid) (m : String) (g' : Grid),
      muRound1 astarFn s e mt cands tries g = (Except.error m, g') → m ≠ "ValueError" := by
  intro cands
  induction cands with
  | nil =>
    intro tries g m g' h
    simp only [muRound1] at h
    simp at h
  | cons cell rest ih =>
    intro tries g m g' h
    simp only [muRound1] at h
    by_cases hmt : mt ≤ tries
    · rw [if_pos hmt] at h
      simp at h
    · rw [if_neg hmt] at h
      match hsv : getCell g cell with
      | none =>
        rw [hsv] at h
        dsimp only at h
        have h2 := Prod.mk.injEq _ _ _ _ ▸ h
        obtain ⟨h3, _⟩ := h2
        intro hm
        subst hm
        have : "IndexError" = "ValueError" := Except.error.inj h3
        exact absurd this (by decide)
      | some saved =>
        rw [hsv] at h
        match hA : astarFn (setCell g cell 0) s e with
        | .error m2 =>
          rw [hA] at h
          dsimp only at h
          have h2 := Prod.mk.injEq _ _ _ _ ▸ h
          obtain ⟨h3, _⟩ := h2
          obtain rfl := Except.error.inj h3
          intro hm
          exact hno _ (by rw [hA, hm])
        | .ok np =>
          rw [hA] at h
          dsimp only at h
          by_cases htr : truthy np = true
          · rw [if_pos htr] at h
            exact ih (tries + 1) _ m g' h
          · rw [if_neg htr] at h
            simp at h

theorem muRound2_ok_false (astarFn : Grid → Coord → Coord → Except String (Option (List Coord)))
    (s e : Coord) :
    ∀ (cands : List Coord) (g g' : Grid),
      muRound2 astarFn s e cands g = (Except.ok false, g') → g' = g := by
  intro cands
  induction cands with
  | nil =>
    intro g g' h
    simp only [muRound2] at h
    exact (Prod.mk.injEq _ _ _ _ ▸ h).2.symm
  | cons cell rest ih =>
    intro g g' h
    simp only [muRound2] at h
    match hsv : getCell g cell with
    | none =>
      rw [hsv] at h
      simp at h
    | some saved =>
      rw [hsv] at h
      dsimp only at h
      match hA : astarFn (setCell g cell 0) s e with
      | .error m =>
        rw [hA] at h
        simp at h
      | .ok np =>
        rw [hA] at h
        dsimp only at h
        by_cases htr : truthy np = true
        · rw [if_pos htr] at h
          have hrev : setCell (setCell g cell 0) cell saved = g :=
            setCell_revert g cell 0 saved hsv
          rw [hrev] at h
          exact ih g g' h
        · rw [if_neg htr] at h
          simp at h

theorem muRound2_no_value_error
    (astarFn : Grid → Coord → Coord → Except String (Option (List Coord)))
    (s e : Coord)
    (hno : ∀ g1 : Grid, astarFn g1 s e ≠ Except.error "ValueError") :
    ∀ (cands : List Coord) (g : Grid) (m : String) (g' : Grid),
      muRound2 astarFn s e cands g = (Except.error m, g') → m ≠ "ValueError" := by
  intro cands
  induction cands with
  | nil =>
    intro g m g' h
    simp only [muRound2] at h
    simp at h
  | cons cell rest ih =>
    intro g m g' h
    simp only [muRound2] at h
    match hsv : getCell g cell with
    | none =>
      rw [hsv] at h
      dsimp only at h
      have h2 := Prod.mk.injEq _ _ _ _ ▸ h
      obtain ⟨h3, _⟩ := h2
      intro hm
      subst hm
      have : "IndexError" = "ValueError" := Except.error.inj h3
      exact absurd this (by decide)
    | some saved =>
      rw [hsv] at h
      dsimp only at h
      match hA : astarFn (setCell g cell 0) s e with
      | .error m2 =>
        rw [hA] at h
        dsimp only at h
        have h2 := Prod.mk.injEq _ _ _ _ ▸ h
        obtain ⟨h3, _⟩ := h2
        obtain rfl := Except.error.inj h3
        intro hm
        exact hno _ (by rw [hA, hm])
      | .ok np =>
        rw [hA] at h
        dsimp only at h
        by_cases htr : truthy np = true
        · rw [if_pos htr] at h
          exact ih _ m g' h
        · rw [if_neg htr] at h
          simp at h

theorem mms_cases (g : Grid) (s e : Coord)
    (astarFn : Grid → Coord → Coord → Except String (Option (List Coord)))
    (sh : List Coord → List Coord) (mt : Nat) (a b : Nat)
    (hs : getCell g s = some a) (he : getCell g e = some b) :
    make_multiple_solutions g s e astarFn sh mt =
      if a = 1 ∧ b = 1 then
        match astarFn g s e with
        | .error m => (.error m, g)
        | .ok orig =>
          if truthy orig then mmsLoop astarFn s e orig mt (sh (wallCandidates g)) 0 g
          else (.ok false, g)
      else (.error "ValueError", g) := by
  unfold make_multiple_solutions
  rw [hs]
  dsimp only
  by_cases ha : a = 1
  · rw [if_neg (by simp [ha]), he]
    dsimp only
    by_cases hb : b = 1
    · rw [if_neg (by simp [hb]), if_pos ⟨ha, hb⟩]
    · rw [if_pos hb, if_neg (fun hab => hb hab.2)]
  · rw [if_pos ha, if_neg (fun hab => ha hab.1)]

theorem mms_spec (g : Grid) (s e : Coord)
    (astarFn : Grid → Coord → Coord → Except String (Option (List Coord)))
    (sh : List Coord → List Coord) (mt : Nat) (a b : Nat)
    (hs : getCell g s = some a) (he : getCell g e = some b)
    (hsh : ∀ l : List Coord, (sh l).Perm l)
    (hno : ∀ g1 : Grid, astarFn g1 s e ≠ Except.error "ValueError") :
    ((make_multiple_solutions g s e astarFn sh mt).1 = Except.error "ValueError" ↔
      ¬(getCell g s = some 1 ∧ getCell g e = some 1)) ∧
    ((make_multiple_solutions g s e astarFn sh mt).1 = Except.error "ValueError" →
      (make_multiple_solutions g s e astarFn sh mt).2 = g) ∧
    (∀ g', make_multiple_solutions g s e astarFn sh mt = (Except.ok false, g') → g' = g) := by
  have hmms := mms_cases g s e astarFn sh mt a b hs he
  by_cases hopen : a = 1 ∧ b = 1
  · obtain ⟨rfl, rfl⟩ := hopen
    rw [if_pos ⟨rfl, rfl⟩] at hmms
    have hboth : getCell g s = some 1 ∧ getCell g e = some 1 := ⟨hs, he⟩
    match hA : astarFn g s e with
    | .error m =>
      rw [hA] at hmms
      have hm : m ≠ "ValueError" := fun hmv => hno _ (by rw [hA, hmv])
      refine ⟨?_, ?_, ?_⟩
      · rw [hmms]
        exact ⟨fun h => absurd (Except.error.inj h) hm, fun h => absurd hboth h⟩
      · intro h
        rw [hmms] at h
        exact absurd (Except.error.inj h) hm
      · intro g' h
        rw [hmms] at h
        exact Except.noConfusion (Prod.ext_iff.mp h).1
    | .ok orig =>
      rw [hA] at hmms
      dsimp only at hmms
      by_cases htr : truthy orig = true
      · rw [if_pos htr] at hmms
        refine ⟨?_, ?_, ?_⟩
        · rw [hmms]
          exact ⟨fun h => absurd h (mmsLoop_no_value_error astarFn s e orig mt hno _ 0 g),
            fun h => absurd hboth h⟩
        · intro h
          rw [hmms] at h
          exact absurd h (mmsLoop_no_value_error astarFn s e orig mt hno _ 0 g)
        · intro g' h
          rw [hmms] at h
          exact mmsLoop_ok_false astarFn s e orig mt _ 0 g g'
            (fun c hc => mem_wallCandidates g c ((hsh _).subset hc)) h
      · rw [if_neg htr] at hmms
        refine ⟨?_, ?_, ?_⟩
        · rw [hmms]
          exact ⟨fun h => Except.noConfusion h, fun h => absurd hboth h⟩
        · intro h
          rw [hmms] at h
          exact absurd h (fun h => Except.noConfusion h)
        · intro g' h
          rw [hmms] at h
          exact (Prod.ext_iff.mp h).2.symm
  · rw [if_neg hopen] at hmms
    have hnboth : ¬(getCell g s = some 1 ∧ getCell g e = some 1) := by
      rintro ⟨h1, h2⟩
      rw [hs] at h1
      rw [he] at h2
      exact hopen ⟨Option.some.inj h1, Option.some.inj h2⟩
    refine ⟨?_, ?_, ?_⟩
    · rw [hmms]
      exact ⟨fun _ => hnboth, fun _ => rfl⟩
    · intro h
      rw [hmms]
    · intro g' h
      rw [hmms] at h
      exact Except.noConfusion (Prod.ext_iff.mp h).1

theorem mu_cases (g : Grid) (s e : Coord)
    (astarFn : Grid → Coord → Coord → Except String (Option (List Coord)))
    (sh1 sh2 : List Coord → List Coord) (mt : Nat) (a b : Nat)
    (hs : getCell g s = some a) (he : getCell g e = some b) :
    make_unsolvable g s e astarFn sh1 sh2 mt =
      if a = 1 ∧ b = 1 then
        match astarFn g s e with
        | .error m => (.error m, g)
        | .ok path =>
          if truthy path then
            let pl := path.getD []
            let inter0 := (pl.drop 1).dropLast
            let inter :=
              if inter0 = [] then
                (if 1 < pl.length then [pl.getD 1 (0, 0)] else [])
              else inter0
            match muRound1 astarFn s e mt (sh1 inter) 0 g with
            | (.error m, g2) => (.error m, g2)
            | (.ok (some b2), g2) => (.ok b2, g2)
            | (.ok none, g2) =>
              muRound2 astarFn s e ((sh2 (openCellsExcept g2 s e)).take mt) g2
          else (.ok true, g)
      else (.error "ValueError", g) := by
  unfold make_unsolvable
  rw [hs]
  dsimp only
  by_cases ha : a = 1
  · rw [if_neg (by simp [ha]), he]
    dsimp only
    by_cases hb : b = 1
    · rw [if_neg (by simp [hb]), if_pos ⟨ha, hb⟩]
    · rw [if_pos hb, if_neg (fun hab => hb hab.2)]
  · rw [if_pos ha, if_neg (fun hab => ha hab.1)]

theorem mu_spec (g : Grid) (s e : Coord)
    (astarFn : Grid → Coord → Coord → Except String (Option (List Coord)))
    (sh1 sh2 : List Coord → List Coord) (mt : Nat) (a b : Nat)
    (hs : getCell g s = some a) (he : getCell g e = some b)
    (hno : ∀ g1 : Grid, astarFn g1 s e ≠ Except.error "ValueError") :
    ((make_unsolvable g s e astarFn sh1 sh2 mt).1 = Except.error "ValueError" ↔
      ¬(getCell g s = some 1 ∧ getCell g e = some 1)) ∧
    ((make_unsolvable g s e astarFn sh1 sh2 mt).1 = Except.error "ValueError" →
      (make_unsolvable g s e astarFn sh1 sh2 mt).2 = g) ∧
    (∀ g', make_unsolvable g s e astarFn sh1 sh2 mt = (Except.ok false, g') → g' = g) := by
  have hmu := mu_cases g s e astarFn sh1 sh2 mt a b hs he
  by_cases hopen : a = 1 ∧ b = 1
  · obtain ⟨rfl, rfl⟩ := hopen
    rw [if_pos ⟨rfl, rfl⟩] at hmu
    have hboth : getCell g s = some 1 ∧ getCell g e = some 1 := ⟨hs, he⟩
    match hA : astarFn g s e with
    | .error m =>
      rw [hA] at hmu
      have hm : m ≠ "ValueError" := fun hmv => hno _ (by rw [hA, hmv])
      refine ⟨?_, ?_, ?_⟩
      · rw [hmu]
        exact ⟨fun h => absurd (Except.error.inj h) hm, fun h => absurd hboth h⟩
      · intro h
        rw [hmu] at h
        exact absurd (Except.error.inj h) hm
      · intro g' h
        rw [hmu] at h
        exact Except.noConfusion (Prod.ext_iff.mp h).1
    | .ok path =>
      rw [hA] at hmu
      dsimp only at hmu
      by_cases htr : truthy path = true
      · rw [if_pos htr] at hmu
        match hR1 : muRound1 astarFn s e mt
            (sh1 (if ((path.getD []).drop 1).dropLast = [] then
              (if 1 < (path.getD []).length then [(path.getD []).getD 1 (0, 0)] else [])
            else ((path.getD []).drop 1).dropLast)) 0 g with
        | (.error m, g2) =>
          rw [hR1] at hmu
          dsimp only at hmu
          have hm : m ≠ "ValueError" :=
            muRound1_no_value_error astarFn s e mt hno _ 0 g m g2 hR1
          refine ⟨?_, ?_, ?_⟩
          · rw [hmu]
            exact ⟨fun h => absurd (Except.error.inj h) hm, fun h => absurd hboth h⟩
          · intro h
            rw [hmu] at h
            exact absurd (Except.error.inj h) hm
          · intro g' h
            rw [hmu] at h
            exact Except.noConfusion (Prod.ext_iff.mp h).1
        | (.ok (some b2), g2) =>
          rw [hR1] at hmu
          dsimp only at hmu
          have hb2 := (muRound1_ok_some astarFn s e mt _ 0 g g2 b2 hR1).1
          subst hb2
          refine ⟨?_, ?_, ?_⟩
          · rw [hmu]
            exact ⟨fun h => Except.noConfusion h, fun h => absurd hboth h⟩
          · intro h
            rw [hmu] at h
            exact absurd h (fun h => Except.noConfusion h)
          · intro g' h
            rw [hmu] at h
            have := Except.ok.inj (Prod.ext_iff.mp h).1
            exact Bool.noConfusion this
        | (.ok none, g2) =>
          rw [hR1] at hmu
          dsimp only at hmu
          have hg2 : g2 = g := muRound1_ok_none astarFn s e mt _ 0 g g2 hR1
          refine ⟨?_, ?_, ?_⟩
          · rw [hmu]
            constructor
            · intro h
              match hR2 : muRound2 astarFn s e
                  ((sh2 (openCellsExcept g2 s e)).take mt) g2 with
              | (res2, g3) =>
                rw [hR2] at h
                match res2 with
                | .error m2 =>
                  exact absurd (Except.error.inj h)
                    (muRound2_no_value_error astarFn s e hno _ g2 m2 g3 hR2)
                | .ok bb => exact Except.noConfusion h
            · intro h
              exact absurd hboth h
          · intro h
            rw [hmu] at h
            match hR2 : muRound2 astarFn s e
                ((sh2 (openCellsExcept g2 s e)).take mt) g2 with
            | (res2, g3) =>
              rw [hR2] at h
              match res2 with
              | .error m2 =>
                exact absurd (Except.error.inj h)
                  (muRound2_no_value_error astarFn s e hno _ g2 m2 g3 hR2)
              | .ok bb => exact Except.noConfusion h
          · intro g' h
            rw [hmu] at h
            have := muRound2_ok_false astarFn s e _ g2 g' h
            rw [this, hg2]
      · rw [if_neg htr] at hmu
        refine ⟨?_, ?_, ?_⟩
        · rw [hmu]
          exact ⟨fun h => Except.noConfusion h, fun h => absurd hboth h⟩
        · intro h
          rw [hmu] at h
          exact absurd h (fun h => Except.noConfusion h)
        · intro g' h
          rw [hmu] at h
          have := Except.ok.inj (Prod.ext_iff.mp h).1
          exact Bool.noConfusion this
  · rw [if_neg hopen] at hmu
    have hnboth : ¬(getCell g s = some 1 ∧ getCell g e = some 1) := by
      rintro ⟨h1, h2⟩
      rw [hs] at h1
      rw [he] at h2
      exact hopen ⟨Option.some.inj h1, Option.some.inj h2⟩
    refine ⟨?_, ?_, ?_⟩
    · rw [hmu]
      exact ⟨fun _ => hnboth, fun _ => rfl⟩
    · intro h
      rw [hmu]
    · intro g' h
      rw [hmu] at h
      exact Except.noConfusion (Prod.ext_iff.mp h).1

/-- C5: both mutators fail with the InvalidEndpoint error (the source's
ValueError) exactly when start or end is not Open, leaving the grid
untouched on that error; and whenever either returns false the grid equals
its pre-call state (every failed candidate mutation was reverted).  The
oracle is arbitrary except that it does not itself raise ValueError (true
of the repository's astar, whose only error is IndexError), and the
shuffles are arbitrary permutations (covering every seed). -/
theorem mutators_invalid_endpoint_iff_and_rollback (g : Grid) (s e : Coord)
    (astarFn : Grid → Coord → Coord → Except String (Option (List Coord)))
    (sh sh1 sh2 : List Coord → List Coord) (mt1 mt2 : Nat) (a b : Nat)
    (hs : getCell g s = some a) (he : getCell g e = some b)
    (hsh : ∀ l : List Coord, (sh l).Perm l)
    (hno : ∀ g1 : Grid, astarFn g1 s e ≠ Except.error "ValueError") :
    (((make_multiple_solutions g s e astarFn sh mt1).1 = Except.error "ValueError" ↔
        ¬(getCell g s = some 1 ∧ getCell g e = some 1)) ∧
      ((make_multiple_solutions g s e astarFn sh mt1).1 = Except.error "ValueError" →
        (make_multiple_solutions g s e astarFn sh mt1).2 = g) ∧
      (∀ g', make_multiple_solutions g s e astarFn sh mt1 = (Except.ok false, g') →
        g' = g)) ∧
    (((make_unsolvable g s e astarFn sh1 sh2 mt2).1 = Except.error "ValueError" ↔
        ¬(getCell g s = some 1 ∧ getCell g e = some 1)) ∧
      ((make_unsolvable g s e astarFn sh1 sh2 mt2).1 = Except.error "ValueError" →
        (make_unsolvable g s e astarFn sh1 sh2 mt2).2 = g) ∧
      (∀ g', make_unsolvable g s e astarFn sh1 sh2 mt2 = (Except.ok false, g') →
        g' = g)) :=
  ⟨mms_spec g s e astarFn sh mt1 a b hs he hsh hno,
    mu_spec g s e astarFn sh1 sh2 mt2 a b hs he hno⟩

/-- C5 witness: the theorem applied at a concrete grid with the identity
shuffle and an oracle that always reports no path. -/
theorem mutators_invalid_endpoint_iff_and_rollback_witness :
    getCell [[1, 0]] (0, 0) = some 1 ∧ getCell [[1, 0]] (0, 1) = some 0 ∧
      (∀ l : List Coord, (id l).Perm l) ∧
      (∀ g1 : Grid, (fun _ _ _ => Except.ok (none : Option (List Coord))) g1 (0, 0) (0, 1) ≠
        Except.error "ValueError") ∧
      ((((make_multiple_solutions [[1, 0]] (0, 0) (0, 1)
            (fun _ _ _ => Except.ok none) id 5).1 = Except.error "ValueError" ↔
          ¬(getCell [[1, 0]] (0, 0) = some 1 ∧ getCell [[1, 0]] (0, 1) = some 1)) ∧
        (((make_multiple_solutions [[1, 0]] (0, 0) (0, 1)
            (fun _ _ _ => Except.ok none) id 5).1 = Except.error "ValueError") →
          (make_multiple_solutions [[1, 0]] (0, 0) (0, 1)
            (fun _ _ _ => Except.ok none) id 5).2 = [[1, 0]]) ∧
        (∀ g', make_multiple_solutions [[1, 0]] (0, 0) (0, 1)
            (fun _ _ _ => Except.ok none) id 5 = (Except.ok false, g') → g' = [[1, 0]])) ∧
      ((((make_unsolvable [[1, 0]] (0, 0) (0, 1)
            (fun _ _ _ => Except.ok none) id id 5).1 = Except.error "ValueError" ↔
          ¬(getCell [[1, 0]] (0, 0) = some 1 ∧ getCell [[1, 0]] (0, 1) = some 1)) ∧
        (((make_unsolvable [[1, 0]] (0, 0) (0, 1)
            (fun _ _ _ => Except.ok none) id id 5).1 = Except.error "ValueError") →
          (make_unsolvable [[1, 0]] (0, 0) (0, 1)
            (fun _ _ _ => Except.ok none) id id 5).2 = [[1, 0]]) ∧
        (∀ g', make_unsolvable [[1, 0]] (0, 0) (0, 1)
            (fun _ _ _ => Except.ok none) id id 5 = (Except.ok false, g') →
          g' = [[1, 0]])))) :=
  ⟨by decide, by decide, fun l => List.Perm.refl l,
    fun g1 h => Except.noConfusion h,
    mutators_invalid_endpoint_iff_and_rollback [[1, 0]] (0, 0) (0, 1)
      (fun _ _ _ => Except.ok none) id id id 5 5 1 0 (by decide) (by decide)
      (fun l => List.Perm.refl l) (fun g1 h => Except.noConfusion h)⟩

/-! ### Heap, dictionary and path toolkit for the solver proofs -/

theorem keyLE_refl (a : Nat × Coord) : keyLE a a := by
  unfold keyLE
  omega

theorem keyLE_trans {a b c : Nat × Coord} (h1 : keyLE a b) (h2 : keyLE b c) :
    keyLE a c := by
  unfold keyLE at h1 h2 ⊢
  omega

theorem keyLE_total (a b : Nat × Coord) : keyLE a b ∨ keyLE b a := by
  unfold keyLE
  omega

theorem popMin_eq_none {l : List (Nat × Coord)} : popMin l = none ↔ l = [] := by
  cases l with
  | nil => simp [popMin]
  | cons x xs =>
    simp only [popMin]
    constructor
    · intro h
      match h2 : popMin xs with
      | none => rw [h2] at h; exact Option.noConfusion h
      | some (m, rest) =>
        rw [h2] at h
        dsimp only at h
        by_cases hle : keyLE x m
        · rw [if_pos hle] at h; exact Option.noConfusion h
        · rw [if_neg hle] at h; exact Option.noConfusion h
    · intro h
      exact List.noConfusion h

theorem popMin_perm {l : List (Nat × Coord)} {m : Nat × Coord}
    {rest : List (Nat × Coord)} (h : popMin l = some (m, rest)) :
    l.Perm (m :: rest) := by
  induction l generalizing m rest with
  | nil => exact Option.noConfusion h
  | cons x xs ih =>
    simp only [popMin] at h
    match h2 : popMin xs with
    | none =>
      rw [h2] at h
      dsimp only at h
      obtain rfl : xs = [] := popMin_eq_none.mp h2
      rw [Option.some.injEq, Prod.mk.injEq] at h
      obtain ⟨rfl, rfl⟩ := h
      exact List.Perm.refl _
    | some (m2, rest2) =>
      rw [h2] at h
      dsimp only at h
      by_cases hle : keyLE x m2
      · rw [if_pos hle] at h
        rw [Option.some.injEq, Prod.mk.injEq] at h
        obtain ⟨rfl, rfl⟩ := h
        exact List.Perm.refl _
      · rw [if_neg hle] at h
        rw [Option.some.injEq, Prod.mk.injEq] at h
        obtain ⟨hm, rfl⟩ := h
        subst hm
        have hperm := ih h2
        exact List.Perm.trans (hperm.cons x) (List.Perm.swap _ x rest2)

theorem popMin_min {l : List (Nat × Coord)} {m : Nat × Coord}
    {rest : List (Nat × Coord)} (h : popMin l = some (m, rest)) :
    ∀ x ∈ l, keyLE m x := by
  induction l generalizing m rest with
  | nil => exact Option.noConfusion h
  | cons x xs ih =>
    simp only [popMin] at h
    match h2 : popMin xs with
    | none =>
      rw [h2] at h
      dsimp only at h
      obtain rfl : xs = [] := popMin_eq_none.mp h2
      rw [Option.some.injEq, Prod.mk.injEq] at h
      obtain ⟨rfl, rfl⟩ := h
      intro y hy
      rw [List.mem_singleton] at hy
      subst hy
      exact keyLE_refl _
    | some (m2, rest2) =>
      rw [h2] at h
      dsimp only at h
      by_cases hle : keyLE x m2
      · rw [if_pos hle] at h
        rw [Option.some.injEq, Prod.mk.injEq] at h
        obtain ⟨rfl, rfl⟩ := h
        intro y hy
        rcases List.mem_cons.mp hy with rfl | hy2
        · exact keyLE_refl _
        · exact keyLE_trans hle (ih h2 y hy2)
      · rw [if_neg hle] at h
        rw [Option.some.injEq, Prod.mk.injEq] at h
        obtain ⟨hm, _⟩ := h
        intro y hy
        rcases List.mem_cons.mp hy with hyx | hy2
        · rw [hyx, ← hm]
          rcases keyLE_total x m2 with hh | hh
          · exact absurd hh hle
          · exact hh
        · rw [← hm]
          exact ih h2 y hy2

theorem dget_dset_self {α : Type} (l : List (Coord × α)) (k : Coord) (v : α) :
    dget (dset l k v) k = some v := by
  simp [dget, dset]

theorem dget_dset_ne {α : Type} (l : List (Coord × α)) (k k2 : Coord) (v : α)
    (h : k ≠ k2) : dget (dset l k v) k2 = dget l k2 := by
  simp [dget, dset, h]

theorem adjacentC_symm {a b : Coord} (h : adjacentC a b) : adjacentC b a := by
  unfold adjacentC at h ⊢
  omega

theorem adjacentC_irrefl (a : Coord) : ¬adjacentC a a := by
  unfold adjacentC
  omega

theorem heuristic_adj {a b : Coord} (c : Coord) (h : adjacentC a b) :
    heuristic a c ≤ heuristic b c + 1 := by
  unfold adjacentC at h
  unfold heuristic
  omega

theorem heuristic_self (a : Coord) : heuristic a a = 0 := by
  unfold heuristic
  omega

/-- There is a path of exactly n steps (n + 1 cells) from a to b. -/
def ReachFrom (g : Grid) (a : Coord) (n : Nat) (b : Coord) : Prop :=
  ∃ p, IsPathList g p a b ∧ p.length = n + 1

theorem isPathList_singleton {g : Grid} {s : Coord} (hs : getCell g s = some 1) :
    IsPathList g [s] s s := by
  refine ⟨by simp, rfl, rfl, by simp, ?_⟩
  intro c hc
  rw [List.mem_singleton] at hc
  subst hc
  exact hs

theorem isPathList_cons_cons {g : Grid} {y : Coord} {q : List Coord} {s e : Coord}
    (h : IsPathList g (s :: y :: q) s e) :
    adjacentC s y ∧ getCell g s = some 1 ∧ IsPathList g (y :: q) y e := by
  obtain ⟨_, _, hlast, hchain, hopen⟩ := h
  rw [List.chain'_cons] at hchain
  refine ⟨hchain.1, hopen s (by simp), ?_⟩
  refine ⟨by simp, rfl, ?_, hchain.2, ?_⟩
  · rw [← hlast]
    exact (List.getLast?_cons_cons ..).symm
  · intro c hc
    exact hopen c (List.mem_cons_of_mem _ hc)

theorem heuristic_lipschitz {g : Grid} (c : Coord) :
    ∀ (p : List Coord) (a b : Coord), IsPathList g p a b →
      heuristic a c ≤ (p.length - 1) + heuristic b c := by
  intro p
  induction p with
  | nil => intro a b h; exact absurd rfl h.1
  | cons x q ih =>
    intro a b h
    obtain rfl : x = a := by
      obtain ⟨_, hhead, _, _, _⟩ := h
      rw [List.head?_cons] at hhead
      exact Option.some.inj hhead
    match q with
    | [] =>
      obtain ⟨_, _, hlast, _, _⟩ := h
      have hba : b = x := by
        rw [List.getLast?_singleton] at hlast
        exact (Option.some.inj hlast).symm
      subst hba
      simp
    | y :: q3 =>
      obtain ⟨hadj, _, htail⟩ := isPathList_cons_cons h
      have hy := ih y b htail
      have hstep := heuristic_adj c hadj
      simp only [List.length_cons] at hy ⊢
      omega

theorem isPathList_lower_bound {g : Grid} {p : List Coord} {a b : Coord}
    (h : IsPathList g p a b) : heuristic a b + 1 ≤ p.length := by
  have hlip := heuristic_lipschitz b p a b h
  rw [heuristic_self] at hlip
  have hlen : 1 ≤ p.length := by
    match p with
    | [] => exact absurd rfl h.1
    | x :: q => simp
  omega

theorem isPathList_extend {g : Grid} {p : List Coord} {s x y : Coord}
    (h : IsPathList g p s x) (hadj : adjacentC x y)
    (hy : getCell g y = some 1) : IsPathList g (p ++ [y]) s y := by
  obtain ⟨hne, hhead, hlast, hchain, hopen⟩ := h
  refine ⟨by simp, ?_, ?_, ?_, ?_⟩
  · rw [List.head?_append_of_ne_nil _ hne]
    exact hhead
  · rw [List.getLast?_concat]
  · apply List.Chain'.append hchain (by simp)
    intro u hu w hw
    rw [List.head?_cons] at hw
    obtain rfl := Option.some.inj hw
    rw [hlast] at hu
    obtain rfl := Option.some.inj hu
    exact hadj
  · intro c hc
    rcases List.mem_append.mp hc with hc1 | hc2
    · exact hopen c hc1
    · rw [List.mem_singleton] at hc2
      subst hc2
      exact hy

theorem reachFrom_extend {g : Grid} {s x y : Coord} {n : Nat}
    (h : ReachFrom g s n x) (hadj : adjacentC x y) (hy : getCell g y = some 1) :
    ReachFrom g s (n + 1) y := by
  obtain ⟨p, hp, hlen⟩ := h
  exact ⟨p ++ [y], isPathList_extend hp hadj hy, by simp [hlen]⟩

theorem isPathList_split {g : Grid} {p1 p2 : List Coord} {y s e : Coord}
    (h : IsPathList g (p1 ++ y :: p2) s e) :
    IsPathList g (p1 ++ [y]) s y ∧ IsPathList g (y :: p2) y e := by
  obtain ⟨hne, hhead, hlast, hchain, hopen⟩ := h
  rw [List.chain'_append] at hchain
  obtain ⟨hc1, hc2, hcb⟩ := hchain
  constructor
  · refine ⟨by simp, ?_, List.getLast?_concat _, ?_, ?_⟩
    · match p1 with
      | [] =>
        simp only [List.nil_append, List.head?_cons] at hhead ⊢
        exact hhead
      | a :: q =>
        simp only [List.cons_append, List.head?_cons] at hhead ⊢
        exact hhead
    · rw [List.chain'_append]
      refine ⟨hc1, by simp, ?_⟩
      intro u hu w hw
      rw [List.head?_cons] at hw
      obtain rfl := Option.some.inj hw
      exact hcb u hu y (by simp)
    · intro c hc
      apply hopen
      rcases List.mem_append.mp hc with hc1m | hc2m
      · exact List.mem_append.mpr (Or.inl hc1m)
      · rw [List.mem_singleton] at hc2m
        subst hc2m
        exact List.mem_append.mpr (Or.inr (by simp))
  · refine ⟨by simp, rfl, ?_, hc2, ?_⟩
    · rw [← hlast]
      exact (List.getLast?_append_of_ne_nil _ (by simp)).symm
    · intro c hc
      exact hopen c (List.mem_append.mpr (Or.inr hc))

theorem isPathList_snoc {g : Grid} {q : List Coord} {s y : Coord}
    (h : IsPathList g (q ++ [y]) s y) (hq : q ≠ []) :
    ∃ x, q.getLast? = some x ∧ IsPathList g q s x ∧ adjacentC x y := by
  obtain ⟨_, hhead, _, hchain, hopen⟩ := h
  rw [List.chain'_append] at hchain
  obtain ⟨hc1, _, hcb⟩ := hchain
  refine ⟨q.getLast hq, List.getLast?_eq_getLast q hq, ?_, ?_⟩
  · refine ⟨hq, ?_, List.getLast?_eq_getLast q hq, hc1, ?_⟩
    · rw [← hhead]
      exact (List.head?_append_of_ne_nil _ hq).symm
    · intro c hc
      exact hopen c (List.mem_append.mpr (Or.inl hc))
  · exact hcb (q.getLast hq) (List.getLast?_eq_getLast q hq) y (by simp)

theorem reachFrom_succ {g : Grid} {s x : Coord} {n : Nat}
    (h : ReachFrom g s (n + 1) x) :
    ∃ y, ReachFrom g s n y ∧ adjacentC y x ∧ getCell g x = some 1 := by
  obtain ⟨p, hp, hlen⟩ := h
  rcases List.eq_nil_or_concat p with rfl | ⟨q, a, rfl⟩
  · exact absurd rfl hp.1
  · simp only [List.concat_eq_append] at hp hlen
    have hxa : a = x := by
      obtain ⟨_, _, hlast, _, _⟩ := hp
      rw [List.getLast?_concat] at hlast
      exact Option.some.inj hlast
    subst hxa
    have hq : q ≠ [] := by
      intro hq0
      subst hq0
      simp only [List.nil_append, List.length_cons, List.length_nil] at hlen
      omega
    obtain ⟨yx, _, hqpath, hadj⟩ := isPathList_snoc hp hq
    refine ⟨yx, ⟨q, hqpath, ?_⟩, hadj, ?_⟩
    · simp only [List.length_append, List.length_cons, List.length_nil] at hlen
      omega
    · exact hp.2.2.2.2 a (List.mem_append.mpr (Or.inr (by simp)))

/-- Classical split of a list at its first element not satisfying P. -/
theorem exists_first_violation {α : Type} (p : List α) (P : α → Prop) :
    (∀ x ∈ p, P x) ∨
      ∃ l1 y l2, p = l1 ++ y :: l2 ∧ (∀ x ∈ l1, P x) ∧ ¬P y := by
  induction p with
  | nil => exact Or.inl (fun x hx => absurd hx (List.not_mem_nil x))
  | cons a q ih =>
    by_cases hPa : P a
    · rcases ih with hall | ⟨l1, y, l2, heq, hl1, hy⟩
      · refine Or.inl ?_
        intro x hx
        rcases List.mem_cons.mp hx with rfl | hx2
        · exact hPa
        · exact hall x hx2
      · refine Or.inr ⟨a :: l1, y, l2, by rw [heq, List.cons_append], ?_, hy⟩
        intro x hx
        rcases List.mem_cons.mp hx with rfl | hx2
        · exact hPa
        · exact hl1 x hx2
    · exact Or.inr ⟨[], a, q, rfl, fun x hx => absurd hx (List.not_mem_nil x), hPa⟩

theorem getCell_bounds {g : Grid} {p : Coord} {v : Nat} (h : getCell g p = some v) :
    p.1 < g.length ∧ ∃ row, g[p.1]? = some row ∧ p.2 < row.length ∧ row ∈ g := by
  rw [getCell_eq_bind] at h
  match hrow : g[p.1]? with
  | none => rw [hrow] at h; exact Option.noConfusion h
  | some row =>
    rw [hrow] at h
    simp only [Option.some_bind] at h
    have hi : p.1 < g.length := by
      by_contra hi
      have : g[p.1]? = none := List.getElem?_eq_none (by omega)
      rw [this] at hrow
      exact Option.noConfusion hrow
    have hj : p.2 < row.length := by
      by_contra hj
      have : row[p.2]? = none := List.getElem?_eq_none (by omega)
      rw [this] at h
      exact Option.noConfusion h
    exact ⟨hi, row, rfl, hj, List.getElem?_mem hrow⟩

theorem mem_pyNeighbors_mp {g : Grid} {x y : Coord} (h : y ∈ pyNeighbors g x) :
    adjacentC x y ∧ getCell g y = some 1 := by
  unfold pyNeighbors at h
  rw [List.mem_filterMap] at h
  obtain ⟨d, hd, heq⟩ := h
  dsimp only at heq
  by_cases hcond : 0 ≤ (x.1 : Int) + d.1 ∧ (x.1 : Int) + d.1 < (g.length : Int) ∧
      0 ≤ (x.2 : Int) + d.2 ∧ (x.2 : Int) + d.2 < ((g.headD []).length : Int) ∧
      getCell g (((x.1 : Int) + d.1).toNat, ((x.2 : Int) + d.2).toNat) = some 1
  · rw [if_pos hcond] at heq
    obtain rfl := Option.some.inj heq
    obtain ⟨h1, h2, h3, h4, h5⟩ := hcond
    refine ⟨?_, h5⟩
    simp [delta4] at hd
    unfold adjacentC
    rcases hd with rfl | rfl | rfl | rfl
    · simp only
      omega
    · simp only
      omega
    · simp only
      omega
    · simp only
      omega
  · rw [if_neg hcond] at heq
    exact Option.noConfusion heq

theorem mem_pyNeighbors_mpr {g : Grid} (hrect : IsRect g) {x y : Coord}
    (hadj : adjacentC x y) (hy : getCell g y = some 1) : y ∈ pyNeighbors g x := by
  obtain ⟨hi, row, hrow, hj, hrowmem⟩ := getCell_bounds hy
  have hcols : row.length = (g.headD []).length := hrect row hrowmem
  unfold pyNeighbors
  rw [List.mem_filterMap]
  unfold adjacentC at hadj
  have hpick : ∃ d ∈ delta4,
      ((x.1 : Int) + d.1).toNat = y.1 ∧ ((x.2 : Int) + d.2).toNat = y.2 ∧
      0 ≤ (x.1 : Int) + d.1 ∧ 0 ≤ (x.2 : Int) + d.2 := by
    rcases hadj with ⟨hr, hc | hc⟩ | ⟨hc, hr | hr⟩
    · exact ⟨(0, 1), by simp [delta4], by simp only; omega, by simp only; omega,
        by simp only; omega, by simp only; omega⟩
    · exact ⟨(0, -1), by simp [delta4], by simp only; omega, by simp only; omega,
        by simp only; omega, by simp only; omega⟩
    · exact ⟨(1, 0), by simp [delta4], by simp only; omega, by simp only; omega,
        by simp only; omega, by simp only; omega⟩
    · exact ⟨(-1, 0), by simp [delta4], by simp only; omega, by simp only; omega,
        by simp only; omega, by simp only; omega⟩
  obtain ⟨d, hd, he1, he2, hn1, hn2⟩ := hpick
  refine ⟨d, hd, ?_⟩
  dsimp only
  have hyeq : (((x.1 : Int) + d.1).toNat, ((x.2 : Int) + d.2).toNat) = y :=
    Prod.ext he1 he2
  rw [if_pos ⟨hn1, by omega, hn2, by omega, by rw [hyeq]; exact hy⟩, hyeq]

/-- The astar loop invariant.  D lists closed nodes whose expansion
obligation is deferred (the node currently being expanded); the running
invariant is AInvX with D = [], and during an expansion D = [cur]. -/
structure AInvX (g : Grid) (start goal : Coord) (D : List Coord) (st : AState) :
    Prop where
  start_g : dget st.gscore start = some 0
  g_open : ∀ x v, dget st.gscore x = some v → getCell g x = some 1
  g_bound : ∀ x v, dget st.gscore x = some v → v < INF
  g_reach : ∀ x v, dget st.gscore x = some v → ReachFrom g start v x
  g_le_cf : ∀ x v, dget st.gscore x = some v → v ≤ st.cameFrom.length
  cf_keys : ∀ x, x ≠ start → (dget st.gscore x).isSome → (dget st.cameFrom x).isSome
  cf_adj : ∀ x y, dget st.cameFrom x = some y → adjacentC y x
  cf_lt : ∀ x y, dget st.cameFrom x = some y →
    ∃ vx vy, dget st.gscore x = some vx ∧ dget st.gscore y = some vy ∧ vy < vx
  open_keys : ∀ f x, (f, x) ∈ st.openSet →
    ∃ v, dget st.gscore x = some v ∧ ((x = start ∧ f = 0) ∨ v + heuristic x goal ≤ f)
  fresh : ∀ x v, dget st.gscore x = some v → x ∉ st.closed →
    ∃ f2, (f2, x) ∈ st.openSet ∧ f2 ≤ v + heuristic x goal
  closed_opt : ∀ x ∈ st.closed, ∃ v, dget st.gscore x = some v ∧
    ∀ n, ReachFrom g start n x → v ≤ n
  closed_exp : ∀ x ∈ st.closed, x ∉ D → ∀ vx, dget st.gscore x = some vx →
    ∀ y, adjacentC x y → getCell g y = some 1 →
      y ∈ st.closed ∨ (∃ vy, dget st.gscore y = some vy ∧ vy ≤ vx + 1) ∨ INF ≤ vx + 1
  goal_out : goal ∉ st.closed

/-- The per-neighbour postcondition of an expansion from a node with
g-score gcur. -/
def postNbr (gcur : Nat) (st : AState) (n : Coord) : Prop :=
  n ∈ st.closed ∨ (∃ vn, dget st.gscore n = some vn ∧ vn ≤ gcur + 1) ∨ INF ≤ gcur + 1

theorem relax_of_closed {goal cur : Coord} {gcur : Nat} {st : AState} {n : Coord}
    (h : n ∈ st.closed) : relax goal cur gcur st n = st := by
  unfold relax
  rw [if_pos h]

theorem relax_of_ge {goal cur : Coord} {gcur : Nat} {st : AState} {n : Coord}
    (h1 : n ∉ st.closed) (h2 : ¬(gcur + 1 < dgetD st.gscore n INF)) :
    relax goal cur gcur st n = st := by
  unfold relax
  rw [if_neg h1]
  dsimp only
  rw [if_neg h2]

theorem relax_of_lt {goal cur : Coord} {gcur : Nat} {st : AState} {n : Coord}
    (h1 : n ∉ st.closed) (h2 : gcur + 1 < dgetD st.gscore n INF) :
    relax goal cur gcur st n =
      { openSet := (gcur + 1 + heuristic n goal, n) :: st.openSet
        cameFrom := dset st.cameFrom n cur
        gscore := dset st.gscore n (gcur + 1)
        fscore := dset st.fscore n (gcur + 1 + heuristic n goal)
        closed := st.closed } := by
  unfold relax
  rw [if_neg h1]
  dsimp only
  rw [if_pos h2]

theorem relax_closed {goal cur : Coord} {gcur : Nat} {st : AState} {n : Coord} :
    (relax goal cur gcur st n).closed = st.closed := by
  by_cases h1 : n ∈ st.closed
  · rw [relax_of_closed h1]
  · by_cases h2 : gcur + 1 < dgetD st.gscore n INF
    · rw [relax_of_lt h1 h2]
    · rw [relax_of_ge h1 h2]

theorem relax_gscore_mono {goal cur : Coord} {gcur : Nat} {st : AState}
    {n : Coord} (x : Coord) (v : Nat) (h : dget st.gscore x = some v) :
    ∃ v2, dget (relax goal cur gcur st n).gscore x = some v2 ∧ v2 ≤ v := by
  by_cases h1 : n ∈ st.closed
  · rw [relax_of_closed h1]
    exact ⟨v, h, le_refl v⟩
  · by_cases h2 : gcur + 1 < dgetD st.gscore n INF
    · rw [relax_of_lt h1 h2]
      by_cases hxn : n = x
      · subst hxn
        refine ⟨gcur + 1, dget_dset_self .., ?_⟩
        rw [dgetD, h] at h2
        exact Nat.le_of_lt h2
      · rw [dget_dset_ne _ _ _ _ hxn]
        exact ⟨v, h, le_refl v⟩
    · rw [relax_of_ge h1 h2]
      exact ⟨v, h, le_refl v⟩

theorem relax_openSet_sub {goal cur : Coord} {gcur : Nat} {st : AState}
    {n : Coord} (fx : Nat × Coord) (h : fx ∈ st.openSet) :
    fx ∈ (relax goal cur gcur st n).openSet := by
  by_cases h1 : n ∈ st.closed
  · rw [relax_of_closed h1]
    exact h
  · by_cases h2 : gcur + 1 < dgetD st.gscore n INF
    · rw [relax_of_lt h1 h2]
      exact List.mem_cons_of_mem _ h
    · rw [relax_of_ge h1 h2]
      exact h

theorem relax_postNbr_mono {goal cur : Coord} {gcur : Nat} {st : AState}
    {n m : Coord} (h : postNbr gcur st m) :
    postNbr gcur (relax goal cur gcur st n) m := by
  unfold postNbr at h ⊢
  rcases h with hc | ⟨vn, hv, hle⟩ | hinf
  · refine Or.inl ?_
    rw [relax_closed]
    exact hc
  · obtain ⟨v2, hv2, hle2⟩ := relax_gscore_mono m vn hv
    exact Or.inr (Or.inl ⟨v2, hv2, Nat.le_trans hle2 hle⟩)
  · exact Or.inr (Or.inr hinf)

theorem relax_postNbr_self {goal cur : Coord} {gcur : Nat} {st : AState}
    {n : Coord} : postNbr gcur (relax goal cur gcur st n) n := by
  unfold postNbr
  by_cases h1 : n ∈ st.closed
  · rw [relax_of_closed h1]
    exact Or.inl h1
  · by_cases h2 : gcur + 1 < dgetD st.gscore n INF
    · rw [relax_of_lt h1 h2]
      exact Or.inr (Or.inl ⟨gcur + 1, dget_dset_self .., le_refl _⟩)
    · match hv : dget st.gscore n with
      | some vn =>
        rw [relax_of_ge h1 h2]
        rw [dgetD, hv] at h2
        simp only [Option.getD_some] at h2
        exact Or.inr (Or.inl ⟨vn, hv, by omega⟩)
      | none =>
        rw [dgetD, hv] at h2
        simp only [Option.getD_none] at h2
        exact Or.inr (Or.inr (by omega))

theorem relax_gscore_cur (goal : Coord) {cur : Coord} {gcur : Nat} {st : AState}
    (n : Coord) (hcur : cur ∈ st.closed) (h : dget st.gscore cur = some gcur) :
    dget (relax goal cur gcur st n).gscore cur = some gcur := by
  by_cases h1 : n ∈ st.closed
  · rw [relax_of_closed h1]
    exact h
  · by_cases h2 : gcur + 1 < dgetD st.gscore n INF
    · rw [relax_of_lt h1 h2]
      have hne : n ≠ cur := fun he => h1 (he ▸ hcur)
      rw [dget_dset_ne _ _ _ _ hne]
      exact h
    · rw [relax_of_ge h1 h2]
      exact h

theorem relax_inv {g : Grid} {start goal cur : Coord} {gcur : Nat} {st : AState}
    {n : Coord} (hinv : AInvX g start goal [cur] st)
    (hcur_closed : cur ∈ st.closed) (hcur_g : dget st.gscore cur = some gcur)
    (hadj : adjacentC cur n) (hopen : getCell g n = some 1) :
    AInvX g start goal [cur] (relax goal cur gcur st n) := by
  by_cases h1 : n ∈ st.closed
  · rw [relax_of_closed h1]
    exact hinv
  · by_cases h2 : gcur + 1 < dgetD st.gscore n INF
    · rw [relax_of_lt h1 h2]
      have hns : n ≠ start := by
        intro he
        subst he
        rw [dgetD, hinv.start_g] at h2
        simp at h2
      have hnc : n ≠ cur := fun he => h1 (he ▸ hcur_closed)
      have htb : gcur + 1 < INF := by
        match hv : dget st.gscore n with
        | some vn =>
          rw [dgetD, hv] at h2
          exact Nat.lt_trans h2 (hinv.g_bound n vn hv)
        | none =>
          rw [dgetD, hv] at h2
          simpa using h2
      refine ⟨?_, ?_, ?_, ?_, ?_, ?_, ?_, ?_, ?_, ?_, ?_, ?_, ?_⟩
      · rw [dget_dset_ne _ _ _ _ hns]
        exact hinv.start_g
      · intro x v hx
        by_cases hxn : n = x
        · subst hxn
          exact hopen
        · rw [dget_dset_ne _ _ _ _ hxn] at hx
          exact hinv.g_open x v hx
      · intro x v hx
        by_cases hxn : n = x
        · subst hxn
          rw [dget_dset_self] at hx
          obtain rfl := (Option.some.inj hx).symm
          exact htb
        · rw [dget_dset_ne _ _ _ _ hxn] at hx
          exact hinv.g_bound x v hx
      · intro x v hx
        by_cases hxn : n = x
        · subst hxn
          rw [dget_dset_self] at hx
          obtain rfl := (Option.some.inj hx).symm
          exact reachFrom_extend (hinv.g_reach cur gcur hcur_g) hadj hopen
        · rw [dget_dset_ne _ _ _ _ hxn] at hx
          exact hinv.g_reach x v hx
      · intro x v hx
        have hlen : (dset st.cameFrom n cur).length = st.cameFrom.length + 1 := rfl
        rw [hlen]
        by_cases hxn : n = x
        · subst hxn
          rw [dget_dset_self] at hx
          obtain rfl := (Option.some.inj hx).symm
          have := hinv.g_le_cf cur gcur hcur_g
          omega
        · rw [dget_dset_ne _ _ _ _ hxn] at hx
          have := hinv.g_le_cf x v hx
          omega
      · intro x hxs hx
        by_cases hxn : n = x
        · subst hxn
          rw [dget_dset_self]
          simp
        · rw [dget_dset_ne _ _ _ _ hxn] at hx
          rw [dget_dset_ne _ _ _ _ hxn]
          exact hinv.cf_keys x hxs hx
      · intro x y hx
        by_cases hxn : n = x
        · subst hxn
          rw [dget_dset_self] at hx
          obtain rfl := (Option.some.inj hx).symm
          exact hadj
        · rw [dget_dset_ne _ _ _ _ hxn] at hx
          exact hinv.cf_adj x y hx
      · intro x y hx
        by_cases hxn : n = x
        · subst hxn
          rw [dget_dset_self] at hx
          obtain rfl := (Option.some.inj hx).symm
          refine ⟨gcur + 1, gcur, dget_dset_self .., ?_, by omega⟩
          rw [dget_dset_ne _ _ _ _ hnc]
          exact hcur_g
        · rw [dget_dset_ne _ _ _ _ hxn] at hx
          obtain ⟨vx, vy, hvx, hvy, hlt⟩ := hinv.cf_lt x y hx
          refine ⟨vx, ?_⟩
          rw [dget_dset_ne _ _ _ _ hxn]
          by_cases hyn : n = y
          · subst hyn
            refine ⟨gcur + 1, hvx, dget_dset_self .., ?_⟩
            rw [dgetD, hvy] at h2
            simp only [Option.getD_some] at h2
            omega
          · rw [dget_dset_ne _ _ _ _ hyn]
            exact ⟨vy, hvx, hvy, hlt⟩
      · intro f x hfx
        rcases List.mem_cons.mp hfx with heq | hmem
        · rw [Prod.mk.injEq] at heq
          obtain ⟨rfl, rfl⟩ := heq
          refine ⟨gcur + 1, dget_dset_self .., Or.inr (le_refl _)⟩
        · obtain ⟨v, hv, hor⟩ := hinv.open_keys f x hmem
          by_cases hxn : n = x
          · subst hxn
            refine ⟨gcur + 1, dget_dset_self .., ?_⟩
            rcases hor with ⟨rfl, _⟩ | hle
            · exact absurd rfl hns
            · rw [dgetD, hv] at h2
              simp only [Option.getD_some] at h2
              exact Or.inr (by omega)
          · rw [dget_dset_ne _ _ _ _ hxn]
            exact ⟨v, hv, hor⟩
      · intro x v hx hxc
        by_cases hxn : n = x
        · subst hxn
          rw [dget_dset_self] at hx
          obtain rfl := (Option.some.inj hx).symm
          exact ⟨gcur + 1 + heuristic n goal, List.mem_cons_self _ _, le_refl _⟩
        · rw [dget_dset_ne _ _ _ _ hxn] at hx
          obtain ⟨f2, hf2, hle⟩ := hinv.fresh x v hx hxc
          exact ⟨f2, List.mem_cons_of_mem _ hf2, hle⟩
      · intro x hxc
        have hxn : n ≠ x := fun he => h1 (he ▸ hxc)
        obtain ⟨v, hv, hmin⟩ := hinv.closed_opt x hxc
        refine ⟨v, ?_, hmin⟩
        rw [dget_dset_ne _ _ _ _ hxn]
        exact hv
      · intro x hxc hxD vx hvx y hyadj hyopen
        have hxn : n ≠ x := fun he => h1 (he ▸ hxc)
        rw [dget_dset_ne _ _ _ _ hxn] at hvx
        rcases hinv.closed_exp x hxc hxD vx hvx y hyadj hyopen with hy | ⟨vy, hvy, hle⟩ | hinf
        · exact Or.inl hy
        · by_cases hyn : n = y
          · subst hyn
            refine Or.inr (Or.inl ⟨gcur + 1, dget_dset_self .., ?_⟩)
            rw [dgetD, hvy] at h2
            simp only [Option.getD_some] at h2
            omega
          · refine Or.inr (Or.inl ⟨vy, ?_, hle⟩)
            rw [dget_dset_ne _ _ _ _ hyn]
            exact hvy
        · exact Or.inr (Or.inr hinf)
      · exact hinv.goal_out
    · rw [relax_of_ge h1 h2]
      exact hinv

theorem relaxList_postNbr_mono {goal cur : Coord} {gcur : Nat} {m : Coord}
    (nbrs : List Coord) :
    ∀ st : AState, postNbr gcur st m →
      postNbr gcur (relaxList goal cur gcur st nbrs) m := by
  induction nbrs with
  | nil => intro st h; exact h
  | cons n rest ih =>
    intro st h
    simp only [relaxList]
    exact ih _ (relax_postNbr_mono h)

theorem relaxList_inv {g : Grid} {start goal cur : Coord} {gcur : Nat}
    (nbrs : List Coord) :
    ∀ st : AState, AInvX g start goal [cur] st →
      cur ∈ st.closed → dget st.gscore cur = some gcur →
      (∀ n ∈ nbrs, adjacentC cur n ∧ getCell g n = some 1) →
      AInvX g start goal [cur] (relaxList goal cur gcur st nbrs) ∧
        (relaxList goal cur gcur st nbrs).closed = st.closed ∧
        dget (relaxList goal cur gcur st nbrs).gscore cur = some gcur ∧
        ∀ n ∈ nbrs, postNbr gcur (relaxList goal cur gcur st nbrs) n := by
  induction nbrs with
  | nil =>
    intro st hinv hc hg _
    exact ⟨hinv, rfl, hg, by simp⟩
  | cons n rest ih =>
    intro st hinv hc hg hnbrs
    have hn := hnbrs n (List.mem_cons_self _ _)
    have hinv2 := relax_inv hinv hc hg hn.1 hn.2
    have hclosed2 : (relax goal cur gcur st n).closed = st.closed := relax_closed
    have hc2 : cur ∈ (relax goal cur gcur st n).closed := by
      rw [hclosed2]; exact hc
    have hg2 := relax_gscore_cur goal n hc hg
    obtain ⟨hi, hcl, hgc, hpost⟩ :=
      ih _ hinv2 hc2 hg2 (fun m hm => hnbrs m (List.mem_cons_of_mem _ hm))
    simp only [relaxList]
    refine ⟨hi, hcl.trans hclosed2, hgc, ?_⟩
    intro m hm
    rcases List.mem_cons.mp hm with rfl | hm2
    · exact relaxList_postNbr_mono rest _ relax_postNbr_self
    · exact hpost m hm2

theorem keyLE_fst {a b : Nat × Coord} (h : keyLE a b) : a.1 ≤ b.1 := by
  unfold keyLE at h
  omega

/-- The key optimality fact: when a not-yet-closed node is popped from the
frontier, its g-score is the exact graph distance from start (here: a lower
bound on the length of every path reaching it). -/
theorem pop_opt {g : Grid} {start goal : Coord} {st : AState}
    {f : Nat} {cur : Coord} {rest : List (Nat × Coord)}
    (hinv : AInvX g start goal [] st)
    (hpop : popMin st.openSet = some ((f, cur), rest))
    (hcur : cur ∉ st.closed) :
    ∃ v, dget st.gscore cur = some v ∧ ∀ n, ReachFrom g start n cur → v ≤ n := by
  have hcur_mem : (f, cur) ∈ st.openSet :=
    (popMin_perm hpop).mem_iff.mpr (List.mem_cons_self _ _)
  obtain ⟨vcur, hvcur, hor⟩ := hinv.open_keys f cur hcur_mem
  refine ⟨vcur, hvcur, ?_⟩
  intro n hreach
  by_cases hbig : INF - 1 ≤ n
  · have := hinv.g_bound cur vcur hvcur
    omega
  push_neg at hbig
  have hn0mem0 : sInf {k | ReachFrom g start k cur} ∈ {k | ReachFrom g start k cur} :=
    Nat.sInf_mem ⟨n, hreach⟩
  have hn0mem : ReachFrom g start (sInf {k | ReachFrom g start k cur}) cur := hn0mem0
  have hn0le : sInf {k | ReachFrom g start k cur} ≤ n :=
    Nat.sInf_le (Set.mem_setOf_eq ▸ hreach)
  set n0 := sInf {k | ReachFrom g start k cur} with hn0def
  suffices hsuff : vcur ≤ n0 by omega
  obtain ⟨p, hp, hplen⟩ := hn0mem
  rcases exists_first_violation p (fun x => x ∈ st.closed) with hall |
      ⟨l1, y, l2, heqp, hl1, hy⟩
  · have hcurp : cur ∈ p := List.mem_of_getLast?_eq_some hp.2.2.1
    exact absurd (hall cur hcurp) hcur
  · subst heqp
    obtain ⟨hpre, hsuf⟩ := isPathList_split hp
    have hlen2 : l1.length + 1 + l2.length = n0 + 1 := by
      simp only [List.length_append, List.length_cons] at hplen
      omega
    have hyopen : getCell g y = some 1 := hsuf.2.2.2.2 y (List.mem_cons_self _ _)
    have hlip : heuristic y goal ≤ l2.length + heuristic cur goal := by
      have := heuristic_lipschitz goal (y :: l2) y cur hsuf
      simp only [List.length_cons] at this
      omega
    match l1 with
    | [] =>
      have hys : y = start := by
        obtain ⟨_, hhead, _, _, _⟩ := hpre
        simp only [List.nil_append, List.head?_cons] at hhead
        exact Option.some.inj hhead
      subst hys
      obtain ⟨f2, hf2, hf2le⟩ := hinv.fresh y 0 hinv.start_g hy
      have hmin := popMin_min hpop (f2, y) hf2
      have hffst : f ≤ f2 := keyLE_fst hmin
      rcases hor with ⟨rfl, rfl⟩ | hle
      · rw [hinv.start_g] at hvcur
        obtain rfl := Option.some.inj hvcur
        omega
      · simp only [List.length_nil] at hlen2
        omega
    | a :: l1b =>
      obtain ⟨x, hxlast, hxpath, hxyadj⟩ := isPathList_snoc hpre (by simp)
      have hxc : x ∈ st.closed :=
        hl1 x (List.mem_of_getLast?_eq_some hxlast)
      obtain ⟨vx, hvx, hvxmin⟩ := hinv.closed_opt x hxc
      have hvxle : vx ≤ l1b.length := by
        have hreachx : ReachFrom g start l1b.length x :=
          ⟨a :: l1b, hxpath, by simp⟩
        exact hvxmin l1b.length hreachx
      rcases hinv.closed_exp x hxc (by simp) vx hvx y hxyadj hyopen with
          hyc | ⟨vy, hvy, hvyle⟩ | hinf
      · exact absurd hyc hy
      · obtain ⟨f2, hf2, hf2le⟩ := hinv.fresh y vy hvy hy
        have hmin := popMin_min hpop (f2, y) hf2
        have hffst : f ≤ f2 := keyLE_fst hmin
        rcases hor with ⟨rfl, rfl⟩ | hle
        · rw [hinv.start_g] at hvcur
          obtain rfl := Option.some.inj hvcur
          omega
        · simp only [List.length_cons] at hlen2 hvxle
          omega
      · simp only [List.length_cons] at hlen2 hvxle
        omega

theorem astar_step_inv {g : Grid} {start goal : Coord} {st : AState}
    {f : Nat} {cur : Coord} {rest : List (Nat × Coord)}
    (hinv : AInvX g start goal [] st) (hrect : IsRect g)
    (hpop : popMin st.openSet = some ((f, cur), rest))
    (hgoal : cur ≠ goal) :
    AInvX g start goal []
      (relaxList goal cur (dgetD st.gscore cur 0)
        { st with openSet := rest, closed := cur :: st.closed }
        (pyNeighbors g cur)) := by
  have hcur_mem : (f, cur) ∈ st.openSet :=
    (popMin_perm hpop).mem_iff.mpr (List.mem_cons_self _ _)
  obtain ⟨vcur, hvcur, _⟩ := hinv.open_keys f cur hcur_mem
  have hdg : dgetD st.gscore cur 0 = vcur := by
    rw [dgetD, hvcur]
    rfl
  set st1 : AState := { st with openSet := rest, closed := cur :: st.closed }
    with hst1
  have hinv1 : AInvX g start goal [cur] st1 := by
    refine ⟨hinv.start_g, hinv.g_open, hinv.g_bound, hinv.g_reach, hinv.g_le_cf,
      hinv.cf_keys, hinv.cf_adj, hinv.cf_lt, ?_, ?_, ?_, ?_, ?_⟩
    · intro f2 x hfx
      exact hinv.open_keys f2 x
        ((popMin_perm hpop).mem_iff.mpr (List.mem_cons_of_mem _ hfx))
    · intro x v hx hxc
      have hxcur : x ≠ cur := fun he => hxc (he ▸ List.mem_cons_self _ _)
      have hxold : x ∉ st.closed := fun hm => hxc (List.mem_cons_of_mem _ hm)
      obtain ⟨f2, hf2, hle⟩ := hinv.fresh x v hx hxold
      have hf2m : (f2, x) ∈ (f, cur) :: rest :=
        (popMin_perm hpop).mem_iff.mp hf2
      rcases List.mem_cons.mp hf2m with heq | hmem
      · rw [Prod.mk.injEq] at heq
        exact absurd heq.2 hxcur
      · exact ⟨f2, hmem, hle⟩
    · intro x hxc
      rcases List.mem_cons.mp hxc with rfl | hxold
      · by_cases hcold : x ∈ st.closed
        · exact hinv.closed_opt x hcold
        · have := pop_opt hinv hpop hcold
          exact this
      · exact hinv.closed_opt x hxold
    · intro x hxc hxD vx hvx y hyadj hyopen
      have hxcur : x ≠ cur := by simpa using hxD
      have hxold : x ∈ st.closed := by
        rcases List.mem_cons.mp hxc with rfl | hm
        · exact absurd rfl hxcur
        · exact hm
      rcases hinv.closed_exp x hxold (by simp) vx hvx y hyadj hyopen with
          hy | hkey | hinf
      · exact Or.inl (List.mem_cons_of_mem _ hy)
      · exact Or.inr (Or.inl hkey)
      · exact Or.inr (Or.inr hinf)
    · intro hm
      rcases List.mem_cons.mp hm with rfl | hm2
      · exact hgoal rfl
      · exact hinv.goal_out hm2
  have hcur1 : cur ∈ st1.closed := List.mem_cons_self _ _
  have hg1 : dget st1.gscore cur = some vcur := hvcur
  obtain ⟨hfin, hclo, hgc, hpost⟩ :=
    relaxList_inv (pyNeighbors g cur) st1 hinv1 hcur1 hg1
      (fun n hn => mem_pyNeighbors_mp hn)
  rw [hdg]
  refine ⟨hfin.start_g, hfin.g_open, hfin.g_bound, hfin.g_reach, hfin.g_le_cf,
    hfin.cf_keys, hfin.cf_adj, hfin.cf_lt, hfin.open_keys, hfin.fresh,
    hfin.closed_opt, ?_, hfin.goal_out⟩
  intro x hxc _ vx hvx y hyadj hyopen
  by_cases hxcur : x = cur
  · subst hxcur
    have hvxv : vx = vcur := by
      rw [hgc] at hvx
      exact (Option.some.inj hvx).symm
    subst hvxv
    have hyn : y ∈ pyNeighbors g x := mem_pyNeighbors_mpr hrect hyadj hyopen
    exact hpost y hyn
  · exact hfin.closed_exp x hxc (by simpa using hxcur) vx hvx y hyadj hyopen

theorem backtrack_spec {g : Grid} {start goal : Coord} {D : List Coord}
    {st : AState} (hinv : AInvX g start goal D st) :
    ∀ v : Nat, ∀ cur, dget st.gscore cur = some v → ∀ fuel, v < fuel →
      (backtrack st.cameFrom start fuel cur).head? = some cur ∧
      (backtrack st.cameFrom start fuel cur).getLast? = some start ∧
      List.Chain' (fun a b => adjacentC b a) (backtrack st.cameFrom start fuel cur) ∧
      (∀ c ∈ backtrack st.cameFrom start fuel cur, getCell g c = some 1) ∧
      (backtrack st.cameFrom start fuel cur).length ≤ v + 1 := by
  intro v
  induction v using Nat.strong_induction_on with
  | _ v ih =>
    intro cur hcur fuel hfuel
    match fuel with
    | 0 => omega
    | fuel + 1 =>
      simp only [backtrack]
      by_cases hcs : cur = start
      · rw [if_pos hcs]
        refine ⟨rfl, by rw [hcs]; rfl, by simp, ?_, by simp⟩
        intro c hc
        rw [List.mem_singleton] at hc
        subst hc
        exact hinv.g_open c v hcur
      · rw [if_neg hcs]
        have hk : (dget st.cameFrom cur).isSome :=
          hinv.cf_keys cur hcs (by rw [hcur]; rfl)
        obtain ⟨prev, hprev⟩ := Option.isSome_iff_exists.mp hk
        rw [hprev]
        dsimp only
        obtain ⟨vx, vy, hvx, hvy, hlt⟩ := hinv.cf_lt cur prev hprev
        have hvxv : vx = v := by
          rw [hcur] at hvx
          exact (Option.some.inj hvx).symm
        subst hvxv
        obtain ⟨hh, hl, hch, hop, hlen⟩ := ih vy hlt prev hvy fuel (by omega)
        match hbt : backtrack st.cameFrom start fuel prev with
        | [] => rw [hbt] at hh; exact Option.noConfusion hh
        | b :: bt2 =>
          rw [hbt] at hh hl hch hop hlen
          rw [List.head?_cons] at hh
          have hb : b = prev := Option.some.inj hh
          rw [hb] at hl hch hop hlen ⊢
          refine ⟨rfl, ?_, ?_, ?_, ?_⟩
          · rw [List.getLast?_cons_cons]
            exact hl
          · rw [List.chain'_cons]
            exact ⟨hinv.cf_adj cur prev hprev, hch⟩

          · intro c hc
            rcases List.mem_cons.mp hc with rfl | hc2
            · exact hinv.g_open c vx hcur
            · exact hop c hc2
          · simp only [List.length_cons] at hlen ⊢
            omega

theorem exhaustion {g : Grid} {start goal : Coord} {st : AState}
    (hinv : AInvX g start goal [] st) (hempty : st.openSet = []) :
    ∀ n x, ReachFrom g start n x → n + 1 ≤ INF →
      x ∈ st.closed ∧ ∃ v, dget st.gscore x = some v ∧ v ≤ n := by
  intro n
  induction n with
  | zero =>
    intro x hreach _
    have hxs : x = start := by
      obtain ⟨p, hp, hlen⟩ := hreach
      match p with
      | [c] =>
        obtain ⟨_, hhead, hlast, _, _⟩ := hp
        rw [List.head?_cons] at hhead
        rw [List.getLast?_singleton] at hlast
        rw [← Option.some.inj hlast, ← Option.some.inj hhead]
      | [] => exact absurd rfl hp.1
      | c :: d :: q => simp at hlen
    subst hxs
    have hxc : x ∈ st.closed := by
      by_contra hxc
      obtain ⟨f2, hf2, _⟩ := hinv.fresh x 0 hinv.start_g hxc
      rw [hempty] at hf2
      exact absurd hf2 (List.not_mem_nil _)
    exact ⟨hxc, 0, hinv.start_g, le_refl 0⟩
  | succ n ihn =>
    intro x hreach hle
    obtain ⟨y, hry, hadj, hxopen⟩ := reachFrom_succ hreach
    obtain ⟨hyc, vy, hvy, hvyle⟩ := ihn y hry (by omega)
    rcases hinv.closed_exp y hyc (by simp) vy hvy x hadj hxopen with
        hxc | ⟨vx, hvx, hvxle⟩ | hinf
    · obtain ⟨v, hv, hmin⟩ := hinv.closed_opt x hxc
      exact ⟨hxc, v, hv, hmin (n + 1) hreach⟩
    · have hxc : x ∈ st.closed := by
        by_contra hxc
        obtain ⟨f2, hf2, _⟩ := hinv.fresh x vx hvx hxc
        rw [hempty] at hf2
        exact absurd hf2 (List.not_mem_nil _)
      exact ⟨hxc, vx, hvx, by omega⟩
    · omega

/-- The finite cell domain whose g-scores bound the loop: all in-bounds
coordinates. -/
def cells (g : Grid) : Finset Coord :=
  Finset.range g.length ×ˢ Finset.range (g.headD []).length

/-- Termination measure of the astar loop: open-list length plus the total
remaining g-score slack over all cells. -/
def mu (g : Grid) (st : AState) : Nat :=
  st.openSet.length + ∑ c ∈ cells g, dgetD st.gscore c INF

theorem pyNeighbors_mem_cells {g : Grid} {x n : Coord}
    (h : n ∈ pyNeighbors g x) : n ∈ cells g := by
  unfold pyNeighbors at h
  rw [List.mem_filterMap] at h
  obtain ⟨d, _, heq⟩ := h
  dsimp only at heq
  by_cases hcond : 0 ≤ (x.1 : Int) + d.1 ∧ (x.1 : Int) + d.1 < (g.length : Int) ∧
      0 ≤ (x.2 : Int) + d.2 ∧ (x.2 : Int) + d.2 < ((g.headD []).length : Int) ∧
      getCell g (((x.1 : Int) + d.1).toNat, ((x.2 : Int) + d.2).toNat) = some 1
  · rw [if_pos hcond] at heq
    obtain rfl := Option.some.inj heq
    obtain ⟨h1, h2, h3, h4, _⟩ := hcond
    simp only [cells, Finset.mem_product, Finset.mem_range]
    exact ⟨by omega, by omega⟩
  · rw [if_neg hcond] at heq
    exact Option.noConfusion heq

theorem relax_mu {g : Grid} (goal cur : Coord) (gcur : Nat) (st : AState)
    {n : Coord} (hn : n ∈ cells g) :
    mu g (relax goal cur gcur st n) ≤ mu g st := by
  by_cases h1 : n ∈ st.closed
  · rw [relax_of_closed h1]
  · by_cases h2 : gcur + 1 < dgetD st.gscore n INF
    · rw [relax_of_lt h1 h2]
      unfold mu
      dsimp only
      rw [List.length_cons]
      have hcong : ∑ c ∈ (cells g).erase n, dgetD (dset st.gscore n (gcur + 1)) c INF
          = ∑ c ∈ (cells g).erase n, dgetD st.gscore c INF := by
        refine Finset.sum_congr rfl ?_
        intro c hc
        have hne : n ≠ c := fun he => (Finset.ne_of_mem_erase hc) he.symm
        unfold dgetD
        rw [dget_dset_ne _ _ _ _ hne]
      rw [← Finset.add_sum_erase _ (fun c => dgetD (dset st.gscore n (gcur + 1)) c INF) hn,
          ← Finset.add_sum_erase _ (fun c => dgetD st.gscore c INF) hn, hcong]
      unfold dgetD at h2 ⊢
      rw [dget_dset_self]
      simp only [Option.getD_some]
      omega
    · rw [relax_of_ge h1 h2]

theorem relaxList_mu {g : Grid} (goal cur : Coord) (gcur : Nat) :
    ∀ (nbrs : List Coord) (st : AState), (∀ n ∈ nbrs, n ∈ cells g) →
      mu g (relaxList goal cur gcur st nbrs) ≤ mu g st := by
  intro nbrs
  induction nbrs with
  | nil => intro st _; exact le_refl _
  | cons n rest ih =>
    intro st hmem
    simp only [relaxList]
    exact le_trans (ih _ (fun m hm => hmem m (List.mem_cons_of_mem _ hm)))
      (relax_mu goal cur gcur st (hmem n (List.mem_cons_self _ _)))

theorem step_mu {g : Grid} (goal : Coord) {st : AState} {f : Nat} {cur : Coord}
    {rest : List (Nat × Coord)} (hpop : popMin st.openSet = some ((f, cur), rest))
    (hnbr : ∀ n ∈ pyNeighbors g cur, n ∈ cells g) :
    mu g (relaxList goal cur (dgetD st.gscore cur 0)
        { st with openSet := rest, closed := cur :: st.closed } (pyNeighbors g cur))
      < mu g st := by
  have hlen : st.openSet.length = rest.length + 1 := by
    have := (popMin_perm hpop).length_eq
    simpa using this
  have h1 := relaxList_mu goal cur (dgetD st.gscore cur 0)
    (pyNeighbors g cur) { st with openSet := rest, closed := cur :: st.closed } hnbr
  have h2 : mu g { st with openSet := rest, closed := cur :: st.closed } < mu g st := by
    unfold mu
    dsimp only
    omega
  omega

/-- The invariant holds for astar's initial state when the start cell is
Open. -/
theorem init_inv {g : Grid} (start goal : Coord) (hs : getCell g start = some 1) :
    AInvX g start goal []
      { openSet := [(0, start)], cameFrom := [], gscore := [(start, 0)],
        fscore := [(start, heuristic start goal)], closed := [] } := by
  have hdom : ∀ x v, dget [(start, 0)] x = some v → x = start ∧ v = 0 := by
    intro x v hx
    simp only [dget] at hx
    by_cases he : start = x
    · rw [if_pos he] at hx
      exact ⟨he.symm, (Option.some.inj hx).symm⟩
    · rw [if_neg he] at hx
      exact Option.noConfusion hx
  refine ⟨?_, ?_, ?_, ?_, ?_, ?_, ?_, ?_, ?_, ?_, ?_, ?_, ?_⟩
  · simp [dget]
  · intro x v hx
    obtain ⟨rfl, _⟩ := hdom x v hx
    exact hs
  · intro x v hx
    obtain ⟨_, rfl⟩ := hdom x v hx
    unfold INF
    omega
  · intro x v hx
    obtain ⟨rfl, rfl⟩ := hdom x v hx
    exact ⟨[x], isPathList_singleton hs, by simp⟩
  · intro x v hx
    obtain ⟨_, rfl⟩ := hdom x v hx
    exact Nat.zero_le _
  · intro x hxs hsome
    obtain ⟨v, hv⟩ := Option.isSome_iff_exists.mp hsome
    exact absurd (hdom x v hv).1 hxs
  · intro x y hxy
    simp only [dget] at hxy
    exact Option.noConfusion hxy
  · intro x y hxy
    simp only [dget] at hxy
    exact Option.noConfusion hxy
  · intro f x hfx
    rw [List.mem_singleton, Prod.mk.injEq] at hfx
    obtain ⟨rfl, rfl⟩ := hfx
    exact ⟨0, by simp [dget], Or.inl ⟨rfl, rfl⟩⟩
  · intro x v hx _
    obtain ⟨rfl, rfl⟩ := hdom x v hx
    exact ⟨0, List.mem_singleton.mpr rfl, Nat.zero_le _⟩
  · intro x hx
    exact absurd hx (List.not_mem_nil _)
  · intro x hx
    exact absurd hx (List.not_mem_nil _)
  · exact List.not_mem_nil _

/-- The main loop theorem: from an invariant state with enough fuel, a
returned path is a valid Open 4-adjacent path from start to goal of at most
INF cells and of minimal length; a None return means no path of at most INF
cells exists. -/
theorem astarLoop_spec {g : Grid} {start goal : Coord} (hrect : IsRect g) :
    ∀ (fuel : Nat) (st : AState), AInvX g start goal [] st → mu g st < fuel →
      (∀ p, astarLoop g start goal fuel st = some p →
          IsPathList g p start goal ∧ p.length ≤ INF ∧
          ∀ n, ReachFrom g start n goal → p.length ≤ n + 1) ∧
      (astarLoop g start goal fuel st = none →
          ∀ n, n + 1 ≤ INF → ¬ReachFrom g start n goal) := by
  intro fuel
  induction fuel with
  | zero =>
    intro st _ hmu
    exact absurd hmu (by omega)
  | succ fuel ih =>
    intro st hinv hmu
    rcases hpop : popMin st.openSet with _ | ⟨⟨f, cur⟩, rest⟩
    · constructor
      · intro p hp
        simp only [astarLoop, hpop] at hp
        exact Option.noConfusion hp
      · intro _ n hle hreach
        obtain ⟨hgc, _⟩ :=
          exhaustion hinv (popMin_eq_none.mp hpop) n goal hreach hle
        exact hinv.goal_out hgc
    · by_cases hcg : cur = goal
      · have hloop : astarLoop g start goal (fuel + 1) st =
            some ((backtrack st.cameFrom start (st.cameFrom.length + 1) cur).reverse) := by
          simp only [astarLoop, hpop]
          rw [if_pos hcg]
        have hfresh : cur ∉ st.closed := by
          rw [hcg]
          exact hinv.goal_out
        obtain ⟨v, hv, hmin⟩ := pop_opt hinv hpop hfresh
        have hvb : v < INF := hinv.g_bound cur v hv
        have hvcf : v ≤ st.cameFrom.length := hinv.g_le_cf cur v hv
        obtain ⟨hh, hl, hch, hop, hlen⟩ :=
          backtrack_spec hinv v cur hv (st.cameFrom.length + 1) (by omega)
        constructor
        · intro p hp
          rw [hloop] at hp
          obtain rfl := Option.some.inj hp
          have hne : backtrack st.cameFrom start (st.cameFrom.length + 1) cur ≠ [] := by
            intro hnil
            rw [hnil] at hh
            exact Option.noConfusion hh
          refine ⟨⟨?_, ?_, ?_, ?_, ?_⟩, ?_, ?_⟩
          · simpa using hne
          · rw [List.head?_reverse]
            exact hl
          · rw [List.getLast?_reverse, hh, hcg]
          · rw [List.chain'_reverse]
            exact hch
          · intro c hc
            exact hop c (List.mem_reverse.mp hc)
          · rw [List.length_reverse]
            omega
          · intro n hreach
            rw [← hcg] at hreach
            have hvn := hmin n hreach
            rw [List.length_reverse]
            omega
        · intro hnone
          rw [hloop] at hnone
          exact Option.noConfusion hnone
      · have hloop : astarLoop g start goal (fuel + 1) st =
            astarLoop g start goal fuel
              (relaxList goal cur (dgetD st.gscore cur 0)
                { st with openSet := rest, closed := cur :: st.closed }
                (pyNeighbors g cur)) := by
          simp only [astarLoop, hpop]
          rw [if_neg hcg]
        have hinv2 := astar_step_inv hinv hrect hpop hcg
        have hdec := step_mu (g := g) goal hpop (fun n hn => pyNeighbors_mem_cells hn)
        obtain ⟨hsome, hnone⟩ := ih _ hinv2 (by omega)
        constructor
        · intro p hp
          rw [hloop] at hp
          exact hsome p hp
        · intro hn
          rw [hloop] at hn
          exact hnone hn

/-- astar's fuel strictly exceeds the initial measure. -/
theorem mu_init_lt (g : Grid) (start goal : Coord) :
    mu g { openSet := [(0, start)], cameFrom := [], gscore := [(start, 0)],
           fscore := [(start, heuristic start goal)], closed := [] }
      < g.length * (g.headD []).length * INF + 2 := by
  have hb : ∑ c ∈ cells g, dgetD [(start, 0)] c INF ≤ (cells g).card • INF := by
    refine Finset.sum_le_card_nsmul _ _ INF ?_
    intro c _
    by_cases he : start = c
    · simp [dgetD, dget, he]
    · simp [dgetD, dget, he]
  have hcard : (cells g).card = g.length * (g.headD []).length := by
    simp [cells]
  rw [smul_eq_mul, hcard] at hb
  unfold mu
  dsimp only
  simp only [List.length_cons, List.length_nil]
  omega

/-- Inversion of astar's entry checks on an ok-some result. -/
theorem astar_entry_open {g : Grid} {s e : Coord} {p : List Coord}
    (h : astar g s e = Except.ok (some p)) :
    ∃ a b, getCell g s = some a ∧ getCell g e = some b ∧ a = 1 ∧ b = 1 ∧
      astarLoop g s e (g.length * (g.headD []).length * INF + 2)
        { openSet := [(0, s)], cameFrom := [], gscore := [(s, 0)],
          fscore := [(s, heuristic s e)], closed := [] } = some p := by
  unfold astar at h
  rcases hcs : getCell g s with _ | a
  · rw [hcs] at h
    dsimp only at h
    exact Except.noConfusion h
  · rw [hcs] at h
    dsimp only at h
    by_cases ha : a = 1
    · rw [if_neg (by simp [ha])] at h
      rcases hce : getCell g e with _ | b
      · rw [hce] at h
        dsimp only at h
        exact Except.noConfusion h
      · rw [hce] at h
        dsimp only at h
        by_cases hb : b = 1
        · rw [if_neg (by simp [hb])] at h
          exact ⟨a, b, rfl, rfl, ha, hb, Except.ok.inj h⟩
        · rw [if_pos hb] at h
          exact Option.noConfusion (Except.ok.inj h)
    · rw [if_pos ha] at h
      exact Option.noConfusion (Except.ok.inj h)

/-- Soundness, the INF cell cap and optimality of any returned astar path. -/
theorem astar_ok_some_spec {g : Grid} (hrect : IsRect g) {s e : Coord}
    {p : List Coord} (h : astar g s e = Except.ok (some p)) :
    IsPathList g p s e ∧ p.length ≤ INF ∧
      ∀ n, ReachFrom g s n e → p.length ≤ n + 1 := by
  obtain ⟨a, b, hcs, hce, ha, hb, hloop⟩ := astar_entry_open h
  have hinv0 := init_inv s e (by rw [hcs, ha])
  obtain ⟨hsome, _⟩ := astarLoop_spec hrect
    (g.length * (g.headD []).length * INF + 2) _ hinv0 (mu_init_lt g s e)
  exact hsome p hloop

/-- A None return on Open endpoints means no path of at most INF cells. -/
theorem astar_ok_none_spec {g : Grid} (hrect : IsRect g) {s e : Coord}
    (hs : getCell g s = some 1) (he : getCell g e = some 1)
    (h : astar g s e = Except.ok none) :
    ∀ n, n + 1 ≤ INF → ¬ReachFrom g s n e := by
  unfold astar at h
  rw [hs] at h
  dsimp only at h
  rw [if_neg (by simp)] at h
  rw [he] at h
  dsimp only at h
  rw [if_neg (by simp)] at h
  have hloop : astarLoop g s e (g.length * (g.headD []).length * INF + 2)
      { openSet := [(0, s)], cameFrom := [], gscore := [(s, 0)],
        fscore := [(s, heuristic s e)], closed := [] } = none := Except.ok.inj h
  obtain ⟨_, hnone⟩ := astarLoop_spec hrect
    (g.length * (g.headD []).length * INF + 2) _ (init_inv s e hs) (mu_init_lt g s e)
  exact hnone hloop

/-- On in-bounds endpoints astar always returns. -/
theorem astar_returns {g : Grid} {s e : Coord} {a b : Nat}
    (hs : getCell g s = some a) (he : getCell g e = some b) :
    ∃ r, astar g s e = Except.ok r := by
  unfold astar
  rw [hs]
  dsimp only
  by_cases ha : a = 1
  · rw [if_neg (by simp [ha]), he]
    dsimp only
    by_cases hb : b = 1
    · rw [if_neg (by simp [hb])]
      exact ⟨_, rfl⟩
    · rw [if_pos hb]
      exact ⟨none, rfl⟩
  · rw [if_pos ha]
    exact ⟨none, rfl⟩

/-- A non-Open endpoint short-circuits astar to None. -/
theorem astar_entry_none {g : Grid} {s e : Coord} {a b : Nat}
    (hs : getCell g s = some a) (he : getCell g e = some b)
    (hab : a ≠ 1 ∨ b ≠ 1) : astar g s e = Except.ok none := by
  unfold astar
  rw [hs]
  dsimp only
  by_cases ha : a = 1
  · rw [if_neg (by simp [ha]), he]
    dsimp only
    rcases hab with h | h
    · exact absurd ha h
    · rw [if_pos h]
  · rw [if_pos ha]

/-- C2: for every (rectangular) grid, start and goal, when astar returns a
path, that path is a valid Open 4-adjacent path from start to goal whose
length equals the true shortest-path distance: no valid path is shorter. -/
theorem astar_optimal {g : Grid} (hrect : IsRect g) {s e : Coord}
    {p : List Coord} (h : astar g s e = Except.ok (some p)) :
    IsPathList g p s e ∧ ∀ q, IsPathList g q s e → p.length ≤ q.length := by
  obtain ⟨hpath, _, hopt⟩ := astar_ok_some_spec hrect h
  refine ⟨hpath, fun q hq => ?_⟩
  have hql : q.length ≠ 0 := fun h0 => hq.1 (List.length_eq_zero.mp h0)
  have := hopt (q.length - 1) ⟨q, hq, by omega⟩
  omega

/-- C2 witness: the theorem applied to the 1 × 2 open grid. -/
theorem astar_optimal_witness :
    IsPathList [[1, 1]] [(0, 0), (0, 1)] (0, 0) (0, 1) ∧
      ∀ q, IsPathList [[1, 1]] q (0, 0) (0, 1) →
        List.length [(0, 0), (0, 1)] ≤ q.length :=
  astar_optimal
    (by
      intro row hrow
      rw [List.mem_singleton] at hrow
      subst hrow
      rfl)
    (show astar [[1, 1]] (0, 0) (0, 1) = Except.ok (some [(0, 0), (0, 1)]) from rfl)

/-- The straight corridor path (0,0), (0,1), ..., (0,n). -/
def cpath : Nat → List Coord
  | 0 => [(0, 0)]
  | n + 1 => cpath n ++ [(0, n + 1)]

theorem getCell_corridor {m i : Nat} (h : i < m) :
    getCell [List.replicate m 1] (0, i) = some 1 := by
  simp [getCell, List.getElem?_replicate, h]

theorem cpath_valid (m : Nat) :
    ∀ n, n < m → IsPathList [List.replicate m 1] (cpath n) (0, 0) (0, n) := by
  intro n
  induction n with
  | zero =>
    intro h
    exact isPathList_singleton (getCell_corridor h)
  | succ n ihn =>
    intro h
    have h1 := ihn (by omega)
    have hadj : adjacentC (0, n) (0, n + 1) := Or.inl ⟨rfl, Or.inl rfl⟩
    exact isPathList_extend h1 hadj (getCell_corridor h)

/-- C3 counterexample: in a 1 × 1000001 corridor of Open cells the two ends
are Open and connected (an explicit Open path joins them), yet astar returns
None: its absent-g-score sentinel gscore.get(nbr, 1_000_000) stops
relaxation at distance 1_000_000, so 'None iff disconnected or a Wall
endpoint' fails. -/
theorem astar_none_despite_connected :
    getCell [List.replicate 1000001 1] (0, 0) = some 1 ∧
      getCell [List.replicate 1000001 1] (0, 1000000) = some 1 ∧
      (∃ q, IsPathList [List.replicate 1000001 1] q (0, 0) (0, 1000000)) ∧
      astar [List.replicate 1000001 1] (0, 0) (0, 1000000) = Except.ok none := by
  have hs : getCell [List.replicate 1000001 1] (0, 0) = some 1 :=
    getCell_corridor (by omega)
  have he : getCell [List.replicate 1000001 1] (0, 1000000) = some 1 :=
    getCell_corridor (by omega)
  have hrect : IsRect [List.replicate 1000001 1] := by
    intro row hrow
    rw [List.mem_singleton] at hrow
    subst hrow
    rfl
  refine ⟨hs, he, ⟨cpath 1000000, cpath_valid 1000001 1000000 (by omega)⟩, ?_⟩
  obtain ⟨r, hr⟩ := astar_returns hs he
  rcases r with _ | p
  · exact hr
  · exfalso
    obtain ⟨hp, hple, _⟩ := astar_ok_some_spec hrect hr
    have hlb := isPathList_lower_bound hp
    have hheu : heuristic (0, 0) ((0 : Nat), (1000000 : Nat)) = 1000000 := by
      norm_num [heuristic]
    rw [hheu] at hlb
    unfold INF at hple
    omega

/-- C3 (amended): on a rectangular grid with in-bounds endpoints, any path
astar returns consists of Open cells, consecutive pairs 4-adjacent, first
element start and last element goal; and it returns None iff start or goal
is a Wall cell, or every Open path joining them has more than 1_000_000
cells (in particular iff they are disconnected, whenever the grid admits
only paths of at most 1_000_000 cells). -/
theorem astar_path_shape_and_none_iff {g : Grid} (hrect : IsRect g)
    {s e : Coord} {a b : Nat}
    (hs : getCell g s = some a) (he : getCell g e = some b) :
    (∀ p, astar g s e = Except.ok (some p) → IsPathList g p s e) ∧
      (astar g s e = Except.ok none ↔
        (a ≠ 1 ∨ b ≠ 1 ∨ ∀ q, IsPathList g q s e → INF < q.length)) := by
  constructor
  · intro p hp
    exact (astar_ok_some_spec hrect hp).1
  · constructor
    · intro hn
      by_cases ha : a = 1
      · by_cases hb : b = 1
        · refine Or.inr (Or.inr ?_)
          intro q hq
          by_contra hql
          push_neg at hql
          have hs1 : getCell g s = some 1 := by rw [hs, ha]
          have he1 : getCell g e = some 1 := by rw [he, hb]
          have h0 : q.length ≠ 0 := fun h0 => hq.1 (List.length_eq_zero.mp h0)
          exact astar_ok_none_spec hrect hs1 he1 hn (q.length - 1)
            (by omega) ⟨q, hq, by omega⟩
        · exact Or.inr (Or.inl hb)
      · exact Or.inl ha
    · intro hcase
      by_cases hab : a ≠ 1 ∨ b ≠ 1
      · exact astar_entry_none hs he hab
      · push_neg at hab
        obtain ⟨ha, hb⟩ := hab
        have hall : ∀ q, IsPathList g q s e → INF < q.length := by
          rcases hcase with hc | hc | hc
          · exact absurd ha hc
          · exact absurd hb hc
          · exact hc
        obtain ⟨r, hr⟩ := astar_returns hs he
        rcases r with _ | p
        · exact hr
        · exfalso
          obtain ⟨hp, hple, _⟩ := astar_ok_some_spec hrect hr
          exact absurd hple (by have := hall p hp; omega)

/-- C3 witness: the amended theorem applied to a 1 × 2 grid with a Wall
goal. -/
theorem astar_path_shape_and_none_iff_witness :
    getCell [[1, 0]] (0, 0) = some 1 ∧ getCell [[1, 0]] (0, 1) = some 0 ∧
      ((∀ p, astar [[1, 0]] (0, 0) (0, 1) = Except.ok (some p) →
          IsPathList [[1, 0]] p (0, 0) (0, 1)) ∧
        (astar [[1, 0]] (0, 0) (0, 1) = Except.ok none ↔
          ((1 : Nat) ≠ 1 ∨ (0 : Nat) ≠ 1 ∨
            ∀ q, IsPathList [[1, 0]] q (0, 0) (0, 1) → INF < q.length))) :=
  ⟨rfl, rfl,
    astar_path_shape_and_none_iff
      (by
        intro row hrow
        rw [List.mem_singleton] at hrow
        subst hrow
        rfl)
      rfl rfl⟩

/-! ### C8: make_unsolvable with the repository's astar oracle -/

/-- C6 failing input: on the 1 x 2 grid of two Open cells with adjacent
start (0,0) and end (0,1), the found path [start, end] has no interior, so
the fallback candidate list is [path[1]] = [end] itself; blocking it makes
astar report no path (end is now a Wall), and make_unsolvable returns true
with the end cell flipped to Wall - contradicting its own docstring
("blocks one or more intermediate cells along that path (not start or
end)").  The identity shuffles are faithful here: the only list shuffled in
this run is the singleton [path[1]], which every seed shuffles to itself,
and the second round is never reached. -/
theorem make_unsolvable_blocks_end_cell :
    make_unsolvable [[1, 1]] (0, 0) (0, 1) astar id id 100 =
        (Except.ok true, [[1, 0]]) ∧
      getCell [[1, 1]] (0, 1) = some 1 ∧ getCell [[1, 0]] (0, 1) = some 0 :=
  ⟨rfl, by decide, by decide⟩

/-! ### C1 and C4: the shared-deltas reshuffle can skip rooms -/

/-- The fuel-indexed iterate of carveStep (used to evaluate carveRun on
concrete inputs). -/
def carveRunF (sh : Nat → List (Int × Int)) (rows cols : Nat) :
    Nat → CarveSt → CarveSt
  | 0, st => st
  | n + 1, st =>
    if st.stack = [] then st
    else carveRunF sh rows cols n (carveStep sh rows cols st)

theorem carveRunF_spec (sh : Nat → List (Int × Int)) (rows cols : Nat) :
    ∀ (n : Nat) (st : CarveSt), (carveRunF sh rows cols n st).stack = [] →
      carveRun sh rows cols st = carveRunF sh rows cols n st := by
  intro n
  induction n with
  | zero =>
    intro st h
    simp only [carveRunF] at h ⊢
    unfold carveRun
    rw [dif_pos h]
  | succ n ih =>
    intro st h
    by_cases hs : st.stack = []
    · simp only [carveRunF] at h ⊢
      rw [if_pos hs]
      unfold carveRun
      rw [dif_pos hs]
    · simp only [carveRunF] at h ⊢
      rw [if_neg hs] at h ⊢
      unfold carveRun
      rw [dif_neg hs]
      exact ih _ h

/-- The five delta-list contents produced by the rng.shuffle calls of
random.Random(1) during generate_maze(2, 3, seed=1), in call order
(recorded from CPython; random.Random is a deterministic function of its
seed). -/
def shuffles231 : List (List (Int × Int)) :=
  [[(-1, 0), (0, 1), (0, -1), (1, 0)],
   [(1, 0), (0, 1), (-1, 0), (0, -1)],
   [(1, 0), (-1, 0), (0, 1), (0, -1)],
   [(0, 1), (0, -1), (1, 0), (-1, 0)],
   [(-1, 0), (1, 0), (0, -1), (0, 1)]]

/-- The shuffle stream of generate_maze(2, 3, seed=1). -/
def badStream (n : Nat) : List (Int × Int) := shuffles231.getD n delta4

/-- The grid generate_maze(2, 3, seed=1) returns: room (1, 0) — grid cell
(3, 1) — was never visited and stays a Wall. -/
theorem generateWith_badStream_eval :
    generateWith badStream 2 3 =
      [[0, 0, 0, 0, 0, 0, 0],
       [0, 1, 1, 1, 0, 1, 0],
       [0, 0, 0, 1, 0, 1, 0],
       [0, 0, 0, 1, 1, 1, 0],
       [0, 0, 0, 0, 0, 0, 0]] := by
  have hfin := carveRunF_spec badStream 2 3 30 (carveInit badStream) (by decide)
  unfold generateWith
  rw [hfin]
  decide

/-- The wall positions between 4-adjacent rooms of a rows x cols maze. -/
def interWalls (rows cols : Nat) : List (Nat × Nat) :=
  (List.range rows).flatMap (fun r =>
      (List.range (cols - 1)).map (fun c => (2 * r + 1, 2 * c + 2))) ++
    (List.range (rows - 1)).flatMap (fun r =>
      (List.range cols).map (fun c => (2 * r + 2, 2 * c + 1)))

/-- C4: the claim fails on a real execution.  In generate_maze(2, 3,
seed=1) — whose five rng.shuffle outcomes are the recorded stream
badStream — carve's for-loops iterate over the one shared deltas list that
nested calls reshuffle in place, so the (0, 0) and (1, 1) frames never see
the delta pointing at room (1, 0); the returned grid has the claimed
(2*2+1) x (2*3+1) shape but leaves room cell (2*1+1, 2*0+1) a Wall instead
of Open. -/
theorem generate_maze_misses_room :
    (generateWith badStream 2 3).length = 2 * 2 + 1 ∧
      (∀ row ∈ generateWith badStream 2 3, row.length = 2 * 3 + 1) ∧
      getCell (generateWith badStream 2 3) (2 * 1 + 1, 2 * 0 + 1) = some 0 := by
  rw [generateWith_badStream_eval]
  exact ⟨by decide, by decide, by decide⟩

/-- C1: the claim fails on a real execution.  In generate_maze(2, 3,
seed=1) (recorded shuffle stream badStream) only 4 between-room walls are
opened, not rows*cols - 1 = 5, and no path at all joins the room cells of
rooms (0, 0) and (1, 0): the opened-wall adjacency graph is not a spanning
tree of the 6 rooms, and 'exactly one simple path between any two room
cells' fails (these two rooms have zero). -/
theorem generate_maze_not_perfect :
    (interWalls 2 3).countP
        (fun w => decide (getCell (generateWith badStream 2 3) w = some 1)) = 4 ∧
      2 * 3 - 1 = 5 ∧
      ¬∃ p, IsPathList (generateWith badStream 2 3) p
        (2 * 0 + 1, 2 * 0 + 1) (2 * 1 + 1, 2 * 0 + 1) := by
  rw [generateWith_badStream_eval]
  refine ⟨by decide, rfl, ?_⟩
  rintro ⟨p, _, _, hl, _, hop⟩
  have hmem := List.mem_of_getLast?_eq_some hl
  have h31 := hop _ hmem
  exact absurd h31 (by decide)

/-! ### C9: determinism of generate_maze in its seed -/

/-- C9: two generate_maze calls with identical rows, cols and the same
non-None seed produce byte-identical results.  In this embedding the seeded
PRNG is the deterministic function mazeShuffles of the seed (Python's
random.Random(seed) is likewise a pure function of its seed), so the result
is determined by the arguments. -/
theorem generate_maze_deterministic (r1 c1 s1 r2 c2 s2 : Nat)
    (hr : r1 = r2) (hc : c1 = c2) (hs : s1 = s2) :
    generate_maze r1 c1 (some s1) = generate_maze r2 c2 (some s2) := by
  subst hr; subst hc; subst hs; rfl

/-- C9 witness: determinism at concrete arguments. -/
theorem generate_maze_deterministic_witness :
    (2 : Nat) = 2 ∧ (3 : Nat) = 3 ∧ (42 : Nat) = 42 ∧
      generate_maze 2 3 (some 42) = generate_maze 2 3 (some 42) :=
  ⟨rfl, rfl, rfl, generate_maze_deterministic 2 3 42 2 3 42 rfl rfl rfl⟩

end SimpleMaze
